import Mathlib

/-!
Verification of the distributed particle filter core (smc/particle_filter.py,
smc/exchange_recipe.py, smc/particles_exchange.py, smc/estimator.py).

The embedding models each processing element (PE) as a record of its particle
list, its weight list and its aggregated weight.  Particles are modelled as
single rationals (the claims under study never inspect the inner structure of
a state column), weights as rationals (exact arithmetic in place of floats).
A distributed particle filter (DPF) state is the list of its PEs' states.
-/

set_option maxHeartbeats 1000000

/-- State of one PE's embedded particle filter
(`CentralizedTargetTrackingParticleFilter`): the particle matrix `_state`
(one rational per column), the weight vector `_weights`, and the scalar
`_aggregatedWeight`. -/
structure PEState where
  particles : List ℚ
  weights : List ℚ
  aggregatedWeight : ℚ
deriving DecidableEq

instance : Inhabited PEState := ⟨⟨[], [], 0⟩⟩

/-- An entry of the DRNA exchange map, `ExchangeTuple` in
smc/exchange_recipe.py: PE index, slot within that PE, neighbour index, slot
within the neighbour. -/
structure ExchangeTuple where
  iPE : ℕ
  iParticleWithinPE : ℕ
  iNeighbour : ℕ
  iParticleWithinNeighbour : ℕ
deriving DecidableEq

/-- `getParticle(self, index)` of CentralizedTargetTrackingParticleFilter,
lifted to the DPF level: the (copied) particle column and weight held at slot
`k` of PE `i`. -/
def getParticle (dpf : List PEState) (i k : ℕ) : ℚ × ℚ :=
  ((dpf.getD i default).particles.getD k 0, (dpf.getD i default).weights.getD k 0)

/-- `setParticle(self, index, particle)`: overwrite slot `k`'s particle column
and weight, then `updateAggregatedWeight` (the aggregated weight is the sum of
the weights). -/
def setParticleInPE (pe : PEState) (k : ℕ) (p : ℚ × ℚ) : PEState :=
  let ws := pe.weights.set k p.2
  { particles := pe.particles.set k p.1, weights := ws, aggregatedWeight := ws.sum }

/-- `setParticle` applied to PE `i` of the DPF. -/
def setParticle (dpf : List PEState) (i k : ℕ) (p : ℚ × ℚ) : List PEState :=
  dpf.set i (setParticleInPE (dpf.getD i default) k p)

/-- The write phase of one exchange tuple: the pre-read pair `pr.2` from the
neighbour goes into the PE's slot and the pre-read pair `pr.1` from the PE
goes into the neighbour's slot (the two `setParticle` calls of
`DRNAExchangeRecipe.performExchange`). -/
def swapWrite (dpf : List PEState) (t : ExchangeTuple) (pr : (ℚ × ℚ) × (ℚ × ℚ)) :
    List PEState :=
  setParticle (setParticle dpf t.iPE t.iParticleWithinPE pr.2)
    t.iNeighbour t.iParticleWithinNeighbour pr.1

/-- The auxiliar variable `aux` of `DRNAExchangeRecipe.performExchange`: all
particles to be exchanged are compiled (snapshotted) before any write. -/
def exchangeSnapshot (dpf : List PEState) (tuples : List ExchangeTuple) :
    List ((ℚ × ℚ) × (ℚ × ℚ)) :=
  tuples.map (fun t =>
    (getParticle dpf t.iPE t.iParticleWithinPE,
     getParticle dpf t.iNeighbour t.iParticleWithinNeighbour))

/-- `DRNAExchangeRecipe.performExchange(self, DPF)` (identical code in
`TargetTrackingParticleFilterWithDRNA.exchangeParticles` and in
smc/particles_exchange.py): snapshot every particle to be exchanged into
`aux`, then loop through the exchange tuples performing the real exchange. -/
def performExchange (tuples : List ExchangeTuple) (dpf : List PEState) : List PEState :=
  (tuples.zip (exchangeSnapshot dpf tuples)).foldl
    (fun s tp => swapWrite s tp.1 tp.2) dpf

/-- One live swap: read both slots of the tuple from the current state and
write them crosswise.  Used to restate `performExchange` as a sequence of
independent two-slot swaps. -/
def swapLive (s : List PEState) (t : ExchangeTuple) : List PEState :=
  swapWrite s t
    (getParticle s t.iPE t.iParticleWithinPE,
     getParticle s t.iNeighbour t.iParticleWithinNeighbour)

/-- The two (PE, slot) positions an exchange tuple touches. -/
def tupleUses (t : ExchangeTuple) : List (ℕ × ℕ) :=
  [(t.iPE, t.iParticleWithinPE), (t.iNeighbour, t.iParticleWithinNeighbour)]

/-- All (PE, slot) positions touched by an exchange plan, with multiplicity. -/
def planUses (tuples : List ExchangeTuple) : List (ℕ × ℕ) :=
  tuples.flatMap tupleUses

/-- An exchange tuple addresses existing PEs and slots. -/
def TupleInRange (nPEs K : ℕ) (t : ExchangeTuple) : Prop :=
  t.iPE < nPEs ∧ t.iNeighbour < nPEs ∧
    t.iParticleWithinPE < K ∧ t.iParticleWithinNeighbour < K

instance (nPEs K : ℕ) (t : ExchangeTuple) : Decidable (TupleInRange nPEs K t) := by
  unfold TupleInRange
  infer_instance

/-- A DRNA exchange plan as produced at construction: no (PE, slot) position
appears in more than one tuple, and every tuple is in range. -/
def ValidPlan (nPEs K : ℕ) (tuples : List ExchangeTuple) : Prop :=
  (planUses tuples).Nodup ∧ ∀ t ∈ tuples, TupleInRange nPEs K t

instance (nPEs K : ℕ) (tuples : List ExchangeTuple) :
    Decidable (ValidPlan nPEs K tuples) := by
  unfold ValidPlan
  infer_instance

/-- A well-formed DPF state: `nPEs` PEs, each holding `K` particles and `K`
weights. -/
def ValidState (nPEs K : ℕ) (dpf : List PEState) : Prop :=
  dpf.length = nPEs ∧ ∀ pe ∈ dpf, pe.particles.length = K ∧ pe.weights.length = K

instance (nPEs K : ℕ) (dpf : List PEState) : Decidable (ValidState nPEs K dpf) := by
  unfold ValidState
  infer_instance

/-- The multiset of one PE's (particle, weight) pairs. -/
def peMultiset (pe : PEState) : Multiset (ℚ × ℚ) :=
  (pe.particles.zip pe.weights : List (ℚ × ℚ))

/-- The multiset of (particle, weight) pairs over the union of all PEs. -/
def pairsMultiset (dpf : List PEState) : Multiset (ℚ × ℚ) :=
  (dpf.map peMultiset).sum

/-- `EmbeddedTargetTrackingParticleFilter.scaleWeights(self, factor)`:
`self._weights *= factor; self._aggregatedWeight *= factor`. -/
def scaleWeights (factor : ℚ) (pe : PEState) : PEState :=
  { particles := pe.particles,
    weights := pe.weights.map (· * factor),
    aggregatedWeight := pe.aggregatedWeight * factor }

/-- The aggregated-weight management tail of
`TargetTrackingParticleFilterWithDRNA.step` (after the local PE steps and the
particle exchange, `pes` being the post-exchange PE states):

* at an exchange step (`n % exchangePeriod == 0`) the method
  `degeneratedAggregatedWeights` is consulted; when the aggregated weights sum
  to zero it prints `aggregated weights add up to 0!!` and drops into an
  interactive console (`code.interact`), which never returns — modelled as an
  error;
* then `aggregatedWeightsSum` is computed and, when
  `n % normalizationPeriod == 0`, every PE gets
  `scaleWeights(1.0/aggregatedWeightsSum)`; a zero sum makes `1.0/0.0` raise
  `ZeroDivisionError` — modelled as an error.

No branch of the source resets the weights. -/
def drnaStepTail (exchangePeriod normalizationPeriod n : ℕ) (pes : List PEState) :
    Except String (List PEState) :=
  let aggregatedWeightsSum := (pes.map PEState.aggregatedWeight).sum
  if n % exchangePeriod = 0 ∧ aggregatedWeightsSum = 0 then
    Except.error "aggregated weights add up to 0!! (interactive console)"
  else
    if n % normalizationPeriod = 0 then
      if aggregatedWeightsSum = 0 then
        Except.error "ZeroDivisionError: float division by zero"
      else
        Except.ok (pes.map (scaleWeights (1 / aggregatedWeightsSum)))
    else
      Except.ok pes

/-- The `weights` property setter of CentralizedTargetTrackingParticleFilter.
When the shapes match, the source executes `self._weights==value` — an
equality comparison whose result is discarded — so the stored weights are
left untouched; otherwise it raises. -/
def weightsSetter (currentWeights value : List ℚ) : Except String (List ℚ) :=
  if currentWeights.length = value.length then
    Except.ok currentWeights
  else
    Except.error "the number of weights does not match the number of particles"

/-- The `weights` setter as the spec mandates it (assignment on matching
shape). -/
def weightsSetterSpec (currentWeights value : List ℚ) : Except String (List ℚ) :=
  if currentWeights.length = value.length then
    Except.ok value
  else
    Except.error "the number of weights does not match the number of particles"

/-- A PE as seen by `MposteriorExchangeRecipe.performExchange`: besides the
fields of CentralizedTargetTrackingParticleFilter (samples, the `_weights`
array behind the `weights` property, the aggregated weight), the Python
object can carry a `logWeights` instance attribute: the class defines no
`logWeights` property, so `PE.logWeights = v` silently creates a fresh
attribute instead of touching `_weights`. -/
structure MposteriorPE where
  samples : List ℚ
  weights : List ℚ
  aggregatedWeight : ℚ
  logWeightsAttr : Option (List ℚ)
deriving DecidableEq

/-- The `samples` property setter of CentralizedTargetTrackingParticleFilter:
assign on matching shape, raise otherwise. -/
def samplesSetter (pe : MposteriorPE) (value : List ℚ) : Except String MposteriorPE :=
  if value.length = pe.samples.length then
    Except.ok { pe with samples := value }
  else
    Except.error "the number and/or dimensions of the samples are not equal to the current ones"

/-- The per-PE tail of `MposteriorExchangeRecipe.performExchange`
(smc/exchange_recipe.py lines 200-202, identically smc/particles_exchange.py
lines 131-133), after the resampled joint particles `newSamples` have been
computed:

* `PE.samples = jointParticles[:,iNewParticles]` — the samples setter;
* `PE.logWeights = np.full(PE._nParticles, -np.log(PE._nParticles))` — the
  class has no `logWeights` property, so this creates the `logWeightsAttr`
  attribute and leaves `_weights` untouched; `vLogK` stands for the float
  `-log(K)`;
* `PE.updateAggregatedWeight()` — sums the untouched `_weights`. -/
def mposteriorPEUpdate (pe : MposteriorPE) (newSamples : List ℚ) (vLogK : ℚ) :
    Except String MposteriorPE := do
  let pe1 ← samplesSetter pe newSamples
  let pe2 := { pe1 with logWeightsAttr := some (List.replicate pe1.weights.length vLogK) }
  Except.ok { pe2 with aggregatedWeight := pe2.weights.sum }

/-- `CentralizedTargetTrackingParticleFilter.resample(self, normalizedWeights)`:
if the resampling criterion fires, keep the particles at the indexes returned
by the resampling algorithm and refill the weights with
`aggregatedWeight / nParticles`. -/
def resamplePE (isResamplingNeeded : List ℚ → Bool) (getIndexes : List ℚ → List ℕ)
    (pe : PEState) (normalizedWeights : List ℚ) : PEState :=
  if isResamplingNeeded normalizedWeights then
    { particles := (getIndexes normalizedWeights).map (fun k => pe.particles.getD k 0),
      weights := List.replicate pe.weights.length
        (pe.aggregatedWeight / pe.weights.length),
      aggregatedWeight := pe.aggregatedWeight }
  else
    pe

/-- `EmbeddedTargetTrackingParticleFilter.avoidWeightDegeneracy`: if the
aggregated weight is zero there is nothing to be done; otherwise the weights
normalized by the aggregated weight are used to resample. -/
def embeddedAvoidWeightDegeneracy (isResamplingNeeded : List ℚ → Bool)
    (getIndexes : List ℚ → List ℕ) (pe : PEState) : PEState :=
  if pe.aggregatedWeight = 0 then
    pe
  else
    resamplePE isResamplingNeeded getIndexes pe
      (pe.weights.map (· / pe.aggregatedWeight))

/-- `CentralizedTargetTrackingParticleFilter.step(self, observations)` as run
by the embedded (DRNA) variant: propagate every particle through the
transition kernel, multiply each weight by the product of the sensor
likelihoods at the propagated particle (`lik`), update the aggregated weight,
then `avoidWeightDegeneracy` (the embedded override). -/
def embeddedStep (kernel : ℚ → ℚ) (lik : ℚ → ℚ) (isResamplingNeeded : List ℚ → Bool)
    (getIndexes : List ℚ → List ℕ) (pe : PEState) : PEState :=
  let newParticles := pe.particles.map kernel
  let newWeights := (pe.weights.zip (newParticles.map lik)).map (fun wl => wl.1 * wl.2)
  embeddedAvoidWeightDegeneracy isResamplingNeeded getIndexes
    { particles := newParticles, weights := newWeights,
      aggregatedWeight := newWeights.sum }

/-- `DistributedTargetTrackingParticleFilter.computeMean`: stack the particles
from all the PEs in a single array and take its per-row arithmetic mean; no
weight is consulted. -/
def computeMeanDPF (pes : List PEState) : ℚ :=
  let jointParticles := (pes.map PEState.particles).flatten
  jointParticles.sum / jointParticles.length

/-- The pooled unweighted arithmetic mean, written from the claim: the sum of
all particles of all PEs divided by their number. -/
def unweightedPooledMean (pes : List PEState) : ℚ :=
  (pes.map (fun pe => pe.particles.sum)).sum / (pes.map (fun pe => pe.particles.length)).sum

/-- Modelled from the spec: `Mean.messages` in smc/estimator.py multiplies the
summed hop counts by a constant of the repository's `state` module, which is
not under src/; spec §4.4 gives `Messages = Σ_j hops(sink,j) · n_state_elements`,
so the number of state elements is an explicit argument here.  The rest is the
source: `distances[self.i_PE, :].sum()` times that constant. -/
def meanEstimatorMessages (hops : ℕ → ℕ → ℕ) (sink nPEs nStateElements : ℕ) : ℕ :=
  ((List.range nPEs).map (hops sink)).sum * nStateElements

/-- The contract of `PRNG.choice(pool, size=n, replace=False)` as used by
`DRNAExchangeRecipe.__init__`: on a duplicate-free pool it returns `n`
distinct elements of the pool, failing exactly when the pool holds fewer
than `n` elements.  The first argument counts the invocations (the PRNG
state). -/
def ChoiceOracle (choose : ℕ → List ℕ → ℕ → Option (List ℕ)) : Prop :=
  ∀ c pool n, pool.Nodup →
    match choose c pool n with
    | some l => l.Nodup ∧ (∀ x ∈ l, x ∈ pool) ∧ l.length = n
    | none => pool.length < n

/-- A deterministic realization of the choice oracle (take the first `n`
elements), used to instantiate the construction on concrete inputs. -/
def takeChoice : ℕ → List ℕ → ℕ → Option (List ℕ) :=
  fun _ pool n => if n ≤ pool.length then some (pool.take n) else none

/-- The mutable state of the planning loop of `DRNAExchangeRecipe.__init__`:
the `alreadyProcessedPEs` matrix (as the list of marked index pairs), the
`iNotSwappedYetParticles` boolean matrix, the accumulated exchange tuples,
the per-PE `_neighbours_particles` lists, and the number of PRNG draws made
so far. -/
structure PlanState where
  alreadyProcessedPEs : List (ℕ × ℕ)
  iNotSwappedYetParticles : ℕ → ℕ → Bool
  exchangeTuples : List ExchangeTuple
  neighboursParticles : List (List (ℕ × List ℕ))
  prngCounter : ℕ

/-- `iParticles[iNotSwappedYetParticles[p,:]]`: the slots of PE `p` not yet
promised to any neighbour. -/
def availableSlots (K : ℕ) (ns : ℕ → ℕ → Bool) (p : ℕ) : List ℕ :=
  (List.range K).filter (fun s => ns p s)

/-- `iNotSwappedYetParticles[p, chosen] = False`. -/
def markSwapped (ns : ℕ → ℕ → Bool) (p : ℕ) (chosen : List ℕ) : ℕ → ℕ → Bool :=
  fun q s => if q = p ∧ s ∈ chosen then false else ns q s

/-- Append one `(neighbour, particle indexes)` entry to the `i`-th PE's list
in `_neighbours_particles`. -/
def appendAt (l : List (List (ℕ × List ℕ))) (i : ℕ) (x : ℕ × List ℕ) :
    List (List (ℕ × List ℕ)) :=
  l.set i (l.getD i [] ++ [x])

/-- The body of the double loop of `DRNAExchangeRecipe.__init__` for the pair
`(iPE, iNeighbour) = (pr.1, pr.2)`: skip if already processed; otherwise draw
`E` slots without replacement for the PE and for the neighbour (a draw from a
pool smaller than `E` raises `ValueError`), extend the exchange tuples, mark
the chosen slots as promised, mark the pair as processed in both directions
and record the grouped `(neighbour, slots)` entries. -/
def processPair (choose : ℕ → List ℕ → ℕ → Option (List ℕ)) (K E : ℕ)
    (st : PlanState) (pr : ℕ × ℕ) : Except String PlanState :=
  if (pr.1, pr.2) ∈ st.alreadyProcessedPEs then Except.ok st else
    match choose st.prngCounter (availableSlots K st.iNotSwappedYetParticles pr.1) E with
    | none => Except.error "ValueError: cannot take a larger sample than population"
    | some chosenPE =>
      match choose (st.prngCounter + 1)
          (availableSlots K st.iNotSwappedYetParticles pr.2) E with
      | none => Except.error "ValueError: cannot take a larger sample than population"
      | some chosenNeighbour =>
        Except.ok {
          alreadyProcessedPEs := (pr.1, pr.2) :: (pr.2, pr.1) :: st.alreadyProcessedPEs,
          iNotSwappedYetParticles :=
            markSwapped (markSwapped st.iNotSwappedYetParticles pr.1 chosenPE)
              pr.2 chosenNeighbour,
          exchangeTuples := st.exchangeTuples ++
            (chosenPE.zip chosenNeighbour).map (fun ab => ⟨pr.1, ab.1, pr.2, ab.2⟩),
          neighboursParticles :=
            appendAt (appendAt st.neighboursParticles pr.1 (pr.2, chosenPE))
              pr.2 (pr.1, chosenNeighbour),
          prngCounter := st.prngCounter + 2 }

/-- The iteration order of the double loop: every `(iPE, iNeighbour)` pair
with `iNeighbour ∈ neighbours[iPE]`, PEs in ascending index. -/
def pairList (neighbours : List (List ℕ)) : List (ℕ × ℕ) :=
  neighbours.enum.flatMap (fun il => il.2.map (fun j => (il.1, j)))

/-- The loop state at entry: nothing processed, every slot available, no
tuples, one empty grouped list per PE. -/
def initPlanState (nPEs : ℕ) : PlanState :=
  { alreadyProcessedPEs := [],
    iNotSwappedYetParticles := fun _ _ => true,
    exchangeTuples := [],
    neighboursParticles := List.replicate nPEs [],
    prngCounter := 0 }

/-- `DRNAExchangeRecipe.__init__` from the point where
`_nParticlesExchangedBetweenTwoNeighbours` (called `E` here) is known:
raise when it is `0` (CPython's `is 0` on a small int behaves as `== 0`),
otherwise run the planning double loop and return the exchange tuples and
the grouped per-PE lists. -/
def drnaPlan (neighbours : List (List ℕ)) (K E : ℕ)
    (choose : ℕ → List ℕ → ℕ → Option (List ℕ)) :
    Except String (List ExchangeTuple × List (List (ℕ × List ℕ))) :=
  if E = 0 then
    Except.error "no particles are to be shared by a PE with its neighbours"
  else do
    let st ← (pairList neighbours).foldlM (processPair choose K E)
      (initPlanState neighbours.length)
    Except.ok (st.exchangeTuples, st.neighboursParticles)

/-- `max([len(neighbourhood) for neighbourhood in neighbours])`. -/
def maxDegree (neighbours : List (List ℕ)) : ℕ :=
  (neighbours.map List.length).foldr Nat.max 0

/-- The fractional case of `exchanged_particles`:
`int((nParticlesPerPE*exchanged_particles)//max([len(n) for n in neighbours]))`,
i.e. `⌊K·φ / max_i |neighbours(i)|⌋` (non-negative for `φ > 0`). -/
def fractionalExchangedParticles (K : ℕ) (phi : ℚ) (neighbours : List (List ℕ)) : ℕ :=
  (⌊((K : ℚ) * phi) / (maxDegree neighbours : ℚ)⌋).toNat

/-- `DRNAExchangeRecipe.__init__` with a fractional `exchanged_particles`. -/
def drnaPlanFractional (neighbours : List (List ℕ)) (K : ℕ) (phi : ℚ)
    (choose : ℕ → List ℕ → ℕ → Option (List ℕ)) :
    Except String (List ExchangeTuple × List (List (ℕ × List ℕ))) :=
  drnaPlan neighbours K (fractionalExchangedParticles K phi neighbours) choose

/-- Safety invariant of the planning loop: the accumulated tuples use each
(PE, slot) position at most once, every used position has been marked
unavailable, and every tuple joins a PE to one of its neighbours. -/
def PlanSafetyInv (neighbours : List (List ℕ)) (st : PlanState) : Prop :=
  (planUses st.exchangeTuples).Nodup ∧
    (∀ pq ∈ planUses st.exchangeTuples,
      st.iNotSwappedYetParticles pq.1 pq.2 = false) ∧
    (∀ t ∈ st.exchangeTuples, t.iNeighbour ∈ neighbours.getD t.iPE [])

/-- How many of PE `p`'s neighbours have already been processed with it. -/
def countProcessed (neighbours : List (List ℕ)) (st : PlanState) (p : ℕ) : ℕ :=
  ((neighbours.getD p []).filter
    (fun q => decide ((p, q) ∈ st.alreadyProcessedPEs))).length

/-- Progress invariant of the planning loop: the processed matrix is
symmetric, each PE's pool of available slots has lost at most `E` slots per
processed neighbour pair, and every grouped entry lists exactly `E` slots. -/
def PlanSuccessInv (neighbours : List (List ℕ)) (K E : ℕ) (st : PlanState) : Prop :=
  (∀ p q, (p, q) ∈ st.alreadyProcessedPEs ↔ (q, p) ∈ st.alreadyProcessedPEs) ∧
    (∀ p, K ≤ (availableSlots K st.iNotSwappedYetParticles p).length +
      E * countProcessed neighbours st p) ∧
    (∀ l ∈ st.neighboursParticles, ∀ e ∈ l, e.2.length = E)

/-- Hop distances on a line of PEs rooted at PE 0: `hops(0, j) = j` (only row
0 is exercised by the concrete instances below). -/
def lineHops : ℕ → ℕ → ℕ :=
  fun _ j => j

/-!
## Theorems

General helper lemmas first, then one theorem (plus witness or
counterexample) per claim.
-/

theorem list_sum_eq_zero_all_zero {l : List ℚ} (hnn : ∀ w ∈ l, 0 ≤ w)
    (hsum : l.sum = 0) : ∀ w ∈ l, w = 0 := by
  induction l with
  | nil => intro w hw; cases hw
  | cons a l ih =>
    have ha : 0 ≤ a := hnn a (List.mem_cons_self a l)
    have hl : ∀ w ∈ l, 0 ≤ w := fun w hw => hnn w (List.mem_cons_of_mem a hw)
    have hls : 0 ≤ l.sum := List.sum_nonneg hl
    have hsc : a + l.sum = 0 := by simpa using hsum
    have ha0 : a = 0 := le_antisymm (by linarith) ha
    have hl0 : l.sum = 0 := by linarith
    intro w hw
    rcases List.mem_cons.mp hw with rfl | hw
    · exact ha0
    · exact ih hl hl0 w hw

theorem zip_map_mul_self {ws ls : List ℚ} (h0 : ∀ w ∈ ws, w = 0)
    (hlen : ws.length ≤ ls.length) :
    (ws.zip ls).map (fun wl => wl.1 * wl.2) = ws := by
  induction ws generalizing ls with
  | nil => simp
  | cons a ws ih =>
    cases ls with
    | nil => simp at hlen
    | cons b ls =>
      have ha : a = 0 := h0 a (List.mem_cons_self a ws)
      have hz : ∀ w ∈ ws, w = 0 := fun w hw => h0 w (List.mem_cons_of_mem a hw)
      have hlen' : ws.length ≤ ls.length := by simpa using hlen
      simp [ih hz hlen', ha]

/-- C2: the claim says a DRNA step whose aggregated weights sum to 0 resets
every PE's weights to uniform and skips the renormalization.  The code has no
such reset: at an exchange step the degeneracy check drops into an
interactive console, and at a normalization step `scaleWeights(1.0/0.0)`
raises `ZeroDivisionError`; both are modelled as errors, and neither branch
produces the uniform-weight state the claim describes. -/
theorem C2_degenerate_weights_not_reset :
    drnaStepTail 1 1 1 [⟨[0], [0], 0⟩, ⟨[0], [0], 0⟩] =
        Except.error "aggregated weights add up to 0!! (interactive console)" ∧
      drnaStepTail 2 1 1 [⟨[0], [0], 0⟩, ⟨[0], [0], 0⟩] =
        Except.error "ZeroDivisionError: float division by zero" := by
  constructor <;> norm_num [drnaStepTail]

/-- C4: the `weights` setter's shape-matching branch executes the comparison
`self._weights==value` instead of an assignment, so the stored weights stay
unchanged even though the spec mandates assignment (`weightsSetterSpec`); the
mismatched-shape branch raises as the claim says. -/
theorem C4_weights_setter_noop :
    weightsSetter [1/2, 1/2] [1/4, 3/4] = Except.ok [1/2, 1/2] ∧
      weightsSetterSpec [1/2, 1/2] [1/4, 3/4] = Except.ok [1/4, 3/4] ∧
      ([1/2, 1/2] : List ℚ) ≠ [1/4, 3/4] ∧
      weightsSetter [1/2, 1/2] [1, 2, 3] =
        Except.error "the number of weights does not match the number of particles" := by
  refine ⟨rfl, rfl, by norm_num, rfl⟩

/-- C3: after `MposteriorExchangeRecipe.performExchange`'s per-PE update the
weights are claimed to be uniform `1/K` with the aggregated weight their
recomputed sum.  The assignment `PE.logWeights = np.full(K, -log K)` only
creates an unused instance attribute, so on a PE whose weights were `[3, 1]`
the stored weights remain `[3, 1]` (not the uniform `[1/2, 1/2]` for `K = 2`)
and the recomputed aggregated weight is `4`, not `2 · (1/2) = 1`. -/
theorem C3_mposterior_weights_not_uniform (vLogK : ℚ) :
    mposteriorPEUpdate ⟨[1, 2], [3, 1], 4, none⟩ [5, 6] vLogK =
        Except.ok ⟨[5, 6], [3, 1], 4, some [vLogK, vLogK]⟩ ∧
      ([3, 1] : List ℚ) ≠ List.replicate 2 ((1 : ℚ) / 2) ∧
      (4 : ℚ) ≠ (List.replicate 2 ((1 : ℚ) / 2)).sum := by
  refine ⟨?_, by norm_num [List.replicate], by norm_num⟩
  norm_num [mposteriorPEUpdate, samplesSetter, Bind.bind, Except.bind, List.replicate]

/-- C5: at a step with `n % normalizationPeriod == 0` whose aggregated
weights have positive sum `S`, dividing every PE's weights and aggregated
weight by `S` makes the aggregated weights sum to exactly 1. -/
theorem C5_renormalized_aggregated_weights_sum_to_one
    (exchangePeriod normalizationPeriod n : ℕ) (pes : List PEState)
    (hTn : n % normalizationPeriod = 0)
    (hS : 0 < (pes.map PEState.aggregatedWeight).sum) :
    Except.map (fun l => (l.map PEState.aggregatedWeight).sum)
        (drnaStepTail exchangePeriod normalizationPeriod n pes) =
      Except.ok 1 := by
  have hS0 : (pes.map PEState.aggregatedWeight).sum ≠ 0 := ne_of_gt hS
  unfold drnaStepTail
  rw [if_neg (fun h => hS0 h.2), if_pos hTn, if_neg hS0]
  simp only [Except.map]
  rw [List.map_map]
  have hcomp : (PEState.aggregatedWeight ∘
      scaleWeights (1 / (pes.map PEState.aggregatedWeight).sum)) =
      fun pe => pe.aggregatedWeight * (1 / (pes.map PEState.aggregatedWeight).sum) := rfl
  rw [hcomp, List.sum_map_mul_right]
  rw [mul_one_div, div_self hS0]

/-- Witness for C5 at a concrete input. -/
theorem C5_witness :
    1 % 1 = 0 ∧
      0 < (([⟨[0], [1/2], 1/2⟩, ⟨[0], [1/2], 1/2⟩] : List PEState).map
        PEState.aggregatedWeight).sum ∧
      Except.map (fun l => (l.map PEState.aggregatedWeight).sum)
          (drnaStepTail 2 1 1 [⟨[0], [1/2], 1/2⟩, ⟨[0], [1/2], 1/2⟩]) =
        Except.ok 1 :=
  ⟨rfl, by norm_num,
    C5_renormalized_aggregated_weights_sum_to_one 2 1 1 _ rfl (by norm_num)⟩

/-- C9: the Mean estimator's message count is the sum over all PEs of the hop
distance from the sink times the number of state elements; on a 5-PE line
with sink 0 (where `hops(0, j) = j`) it is `(0+1+2+3+4)` times that
constant. -/
theorem C9_mean_estimator_messages (hops : ℕ → ℕ → ℕ) (sink nPEs c : ℕ)
    (hline : ∀ j, hops 0 j = j) :
    meanEstimatorMessages hops sink nPEs c =
        ((List.range nPEs).map (hops sink)).sum * c ∧
      meanEstimatorMessages hops 0 5 c = (0 + 1 + 2 + 3 + 4) * c := by
  refine ⟨rfl, ?_⟩
  have h5 : (List.range 5).map (hops 0) = [0, 1, 2, 3, 4] := by
    simp [List.range_succ, hline]
  unfold meanEstimatorMessages
  rw [h5]
  rfl

/-- Witness for C9 on the 5-PE line with sink 0. -/
theorem C9_witness :
    meanEstimatorMessages lineHops 0 5 3 = ((List.range 5).map (lineHops 0)).sum * 3 ∧
      meanEstimatorMessages lineHops 0 5 3 = (0 + 1 + 2 + 3 + 4) * 3 :=
  C9_mean_estimator_messages lineHops 0 5 3 (fun _ => rfl)

/-- C10: `computeMean` of the base distributed filter is the unweighted
arithmetic mean of the particles pooled over every PE; two states with the
same particles but arbitrary (per-particle or aggregated) weights yield the
same estimate. -/
theorem C10_compute_mean_unweighted (pes pes' : List PEState)
    (hsame : pes.map PEState.particles = pes'.map PEState.particles) :
    computeMeanDPF pes = unweightedPooledMean pes ∧
      computeMeanDPF pes = computeMeanDPF pes' := by
  constructor
  · show (pes.map PEState.particles).flatten.sum /
        ((pes.map PEState.particles).flatten.length : ℚ) =
      unweightedPooledMean pes
    unfold unweightedPooledMean
    rw [List.sum_flatten, List.length_flatten, List.map_map, List.map_map]
    rfl
  · show (pes.map PEState.particles).flatten.sum /
        ((pes.map PEState.particles).flatten.length : ℚ) =
      (pes'.map PEState.particles).flatten.sum /
        ((pes'.map PEState.particles).flatten.length : ℚ)
    rw [hsame]

/-- Witness for C10: same particles, different weights. -/
theorem C10_witness :
    ([⟨[1, 2], [5, 6], 7⟩] : List PEState).map PEState.particles =
        ([⟨[1, 2], [0, 0], 0⟩] : List PEState).map PEState.particles ∧
      computeMeanDPF [⟨[1, 2], [5, 6], 7⟩] = unweightedPooledMean [⟨[1, 2], [5, 6], 7⟩] ∧
      computeMeanDPF [⟨[1, 2], [5, 6], 7⟩] = computeMeanDPF [⟨[1, 2], [0, 0], 0⟩] :=
  ⟨rfl, C10_compute_mean_unweighted _ _ rfl⟩

/-- C8 counterexample: the claim says an embedded PE with zero aggregated
weight leaves particles, weights and aggregated weight unchanged under
`step`; but `step` always propagates the particles through the transition
kernel first, so with the kernel `x ↦ x + 1` the particle matrix changes. -/
theorem C8_counterexample :
    ¬ (embeddedStep (fun x => x + 1) (fun _ => 1) (fun _ => false) (fun _ => [])
        ⟨[0], [0], 0⟩ = ⟨[0], [0], 0⟩) := by
  unfold embeddedStep embeddedAvoidWeightDegeneracy
  norm_num [PEState.mk.injEq]

/-- C8 (amended): on an embedded PE whose aggregated weight is 0 (hence, the
weights being non-negative and summing to it, all zero), `step` leaves the
weight vector and the aggregated weight unchanged and performs no
resampling, but the particle matrix is still propagated through the
transition kernel. -/
theorem C8_embedded_step_zero_aggregated_weight (kernel lik : ℚ → ℚ)
    (isResamplingNeeded : List ℚ → Bool) (getIndexes : List ℚ → List ℕ)
    (pe : PEState) (hagg : pe.aggregatedWeight = 0) (hsum : pe.weights.sum = 0)
    (hnn : ∀ w ∈ pe.weights, 0 ≤ w)
    (hlen : pe.weights.length ≤ pe.particles.length) :
    (embeddedStep kernel lik isResamplingNeeded getIndexes pe).particles =
        pe.particles.map kernel ∧
      (embeddedStep kernel lik isResamplingNeeded getIndexes pe).weights = pe.weights ∧
      (embeddedStep kernel lik isResamplingNeeded getIndexes pe).aggregatedWeight =
        pe.aggregatedWeight := by
  have h0 : ∀ w ∈ pe.weights, w = 0 := list_sum_eq_zero_all_zero hnn hsum
  have hlen' : pe.weights.length ≤ ((pe.particles.map kernel).map lik).length := by
    simpa using hlen
  have hw : (pe.weights.zip ((pe.particles.map kernel).map lik)).map
      (fun wl => wl.1 * wl.2) = pe.weights := zip_map_mul_self h0 hlen'
  unfold embeddedStep embeddedAvoidWeightDegeneracy
  simp only [hw, hsum, if_pos rfl]
  exact ⟨rfl, rfl, hagg.symm⟩

/-- Witness for C8 (amended) at a concrete input. -/
theorem C8_witness :
    (((⟨[5], [0], 0⟩ : PEState).aggregatedWeight = 0) ∧
      ((⟨[5], [0], 0⟩ : PEState).weights.sum = 0)) ∧
      (embeddedStep (fun x => x + 1) (fun _ => 1) (fun _ => false) (fun _ => [])
          ⟨[5], [0], 0⟩).particles = (⟨[5], [0], 0⟩ : PEState).particles.map (fun x => x + 1) ∧
      (embeddedStep (fun x => x + 1) (fun _ => 1) (fun _ => false) (fun _ => [])
          ⟨[5], [0], 0⟩).weights = (⟨[5], [0], 0⟩ : PEState).weights ∧
      (embeddedStep (fun x => x + 1) (fun _ => 1) (fun _ => false) (fun _ => [])
          ⟨[5], [0], 0⟩).aggregatedWeight = (⟨[5], [0], 0⟩ : PEState).aggregatedWeight :=
  ⟨⟨rfl, by norm_num⟩,
    C8_embedded_step_zero_aggregated_weight (fun x => x + 1) (fun _ => 1)
      (fun _ => false) (fun _ => []) ⟨[5], [0], 0⟩ rfl (by norm_num)
      (by norm_num) (by norm_num)⟩

theorem getD_set_ne {α : Type} (l : List α) (i j : ℕ) (a d : α) (h : j ≠ i) :
    (l.set i a).getD j d = l.getD j d := by
  rw [List.getD_eq_getElem?_getD, List.getD_eq_getElem?_getD,
    List.getElem?_set_ne (Ne.symm h)]

theorem getD_set_eq {α : Type} (l : List α) (i : ℕ) (a d : α) (h : i < l.length) :
    (l.set i a).getD i d = a := by
  rw [List.getD_eq_getElem?_getD, List.getElem?_set_eq_of_lt a h]
  rfl

theorem pePairAt_eq_getParticle (dpf : List PEState) (i k : ℕ) :
    getParticle dpf i k = ((dpf.getD i default).particles.getD k 0,
      (dpf.getD i default).weights.getD k 0) := rfl

theorem getParticle_setParticle_fst_ne (dpf : List PEState) (i k q s : ℕ) (p : ℚ × ℚ)
    (h : q ≠ i) : getParticle (setParticle dpf i k p) q s = getParticle dpf q s := by
  unfold getParticle setParticle
  rw [getD_set_ne _ _ _ _ _ h]

theorem getParticle_setParticle_snd_ne (dpf : List PEState) (i k s : ℕ) (p : ℚ × ℚ)
    (h : s ≠ k) : getParticle (setParticle dpf i k p) i s = getParticle dpf i s := by
  unfold getParticle setParticle setParticleInPE
  by_cases hi : i < dpf.length
  · rw [getD_set_eq _ _ _ _ hi]
    simp only [getD_set_ne _ _ _ _ _ h]
  · rw [List.set_eq_of_length_le (by omega)]

theorem getParticle_setParticle_ne (dpf : List PEState) (i k : ℕ) (p : ℚ × ℚ)
    (pq : ℕ × ℕ) (h : pq ≠ (i, k)) :
    getParticle (setParticle dpf i k p) pq.1 pq.2 = getParticle dpf pq.1 pq.2 := by
  by_cases h1 : pq.1 = i
  · subst h1
    exact getParticle_setParticle_snd_ne dpf pq.1 k pq.2 p
      (fun hs => h (Prod.ext rfl hs))
  · exact getParticle_setParticle_fst_ne dpf i k pq.1 pq.2 p h1

theorem getParticle_setParticle_eq (dpf : List PEState) (i k : ℕ) (p : ℚ × ℚ)
    (hi : i < dpf.length) (hk : k < (dpf.getD i default).particles.length)
    (hk' : k < (dpf.getD i default).weights.length) :
    getParticle (setParticle dpf i k p) i k = p := by
  unfold getParticle setParticle setParticleInPE
  rw [getD_set_eq _ _ _ _ hi]
  simp only [getD_set_eq _ _ _ _ hk, getD_set_eq _ _ _ _ hk']

theorem length_setParticle (dpf : List PEState) (i k : ℕ) (p : ℚ × ℚ) :
    (setParticle dpf i k p).length = dpf.length := by
  simp [setParticle]

theorem peState_getD_mem (dpf : List PEState) (i : ℕ) (h : i < dpf.length) :
    dpf.getD i default ∈ dpf := by
  rw [List.getD_eq_getElem?_getD, List.getElem?_eq_getElem h]
  exact List.getElem_mem h

theorem validState_setParticle {nPEs K : ℕ} {dpf : List PEState}
    (hv : ValidState nPEs K dpf) (i k : ℕ) (p : ℚ × ℚ) :
    ValidState nPEs K (setParticle dpf i k p) := by
  by_cases hi : i < dpf.length
  · obtain ⟨hlen, hpe⟩ := hv
    refine ⟨by rw [length_setParticle, hlen], ?_⟩
    intro pe hmem
    rcases List.mem_or_eq_of_mem_set hmem with hmem' | rfl
    · exact hpe pe hmem'
    · obtain ⟨h1, h2⟩ := hpe _ (peState_getD_mem dpf i hi)
      unfold setParticleInPE
      exact ⟨by simpa using h1, by simpa using h2⟩
  · have heq : setParticle dpf i k p = dpf := by
      unfold setParticle
      exact List.set_eq_of_length_le (by omega)
    rw [heq]
    exact hv

theorem multiset_set_add {α : Type} (xs : List α) (k : ℕ) (v d : α) (h : k < xs.length) :
    (↑(xs.set k v) : Multiset α) + {xs.getD k d} = (↑xs : Multiset α) + {v} := by
  induction xs generalizing k with
  | nil => simp at h
  | cons a xs ih =>
    cases k with
    | zero =>
      simp only [List.set_cons_zero, List.getD_cons_zero]
      rw [← Multiset.cons_coe, ← Multiset.cons_coe, ← Multiset.singleton_add,
        ← Multiset.singleton_add]
      abel
    | succ k =>
      have hk : k < xs.length := by simpa using h
      simp only [List.set_cons_succ, List.getD_cons_succ]
      rw [← Multiset.cons_coe, ← Multiset.cons_coe, Multiset.cons_add,
        Multiset.cons_add, ih k hk]

theorem map_sum_set_add {α M : Type} [AddCommMonoid M] (l : List α) (g : α → M)
    (i : ℕ) (x d : α) (h : i < l.length) :
    ((l.set i x).map g).sum + g (l.getD i d) = (l.map g).sum + g x := by
  induction l generalizing i with
  | nil => simp at h
  | cons a l ih =>
    cases i with
    | zero =>
      simp only [List.set_cons_zero, List.getD_cons_zero, List.map_cons, List.sum_cons]
      abel
    | succ i =>
      have hi : i < l.length := by simpa using h
      simp only [List.set_cons_succ, List.getD_cons_succ, List.map_cons, List.sum_cons]
      rw [add_assoc, ih i hi, ← add_assoc]

theorem zip_set {α β : Type} (l : List α) (m : List β) (k : ℕ) (a : α) (b : β) :
    (l.set k a).zip (m.set k b) = (l.zip m).set k (a, b) := by
  induction l generalizing m k with
  | nil => simp
  | cons x xs ih =>
    cases m with
    | nil => simp
    | cons y ys =>
      cases k with
      | zero => simp
      | succ k => simp [ih]

theorem zip_getD {α β : Type} (l : List α) (m : List β) (k : ℕ) (d1 : α) (d2 : β)
    (h1 : k < l.length) (h2 : k < m.length) :
    (l.zip m).getD k (d1, d2) = (l.getD k d1, m.getD k d2) := by
  have hz : k < (l.zip m).length := by
    rw [List.length_zip]
    omega
  rw [List.getD_eq_getElem _ _ hz, List.getD_eq_getElem _ _ h1,
    List.getD_eq_getElem _ _ h2, List.getElem_zip]

theorem peMultiset_setParticleInPE (pe : PEState) (k : ℕ) (p : ℚ × ℚ)
    (hk : k < pe.particles.length) (hk' : k < pe.weights.length) :
    peMultiset (setParticleInPE pe k p) +
        {(pe.particles.getD k 0, pe.weights.getD k 0)} =
      peMultiset pe + {p} := by
  unfold peMultiset setParticleInPE
  simp only
  rw [zip_set]
  have hz : k < (pe.particles.zip pe.weights).length := by
    rw [List.length_zip]
    omega
  have := multiset_set_add (pe.particles.zip pe.weights) k p (0, 0) hz
  rwa [zip_getD _ _ _ _ _ hk hk'] at this

theorem pairsMultiset_setParticle (dpf : List PEState) (i k : ℕ) (p : ℚ × ℚ)
    (hi : i < dpf.length) :
    pairsMultiset (setParticle dpf i k p) + peMultiset (dpf.getD i default) =
      pairsMultiset dpf + peMultiset (setParticleInPE (dpf.getD i default) k p) := by
  unfold pairsMultiset setParticle
  exact map_sum_set_add dpf peMultiset i _ default hi

theorem pairsMultiset_setParticle_add {nPEs K : ℕ} (dpf : List PEState) (i k : ℕ)
    (p : ℚ × ℚ) (hv : ValidState nPEs K dpf) (hi : i < nPEs) (hk : k < K) :
    pairsMultiset (setParticle dpf i k p) + {getParticle dpf i k} =
      pairsMultiset dpf + {p} := by
  obtain ⟨hlen, hpe⟩ := hv
  have hi' : i < dpf.length := by omega
  obtain ⟨h1, h2⟩ := hpe _ (peState_getD_mem dpf i hi')
  have hk1 : k < (dpf.getD i default).particles.length := by omega
  have hk2 : k < (dpf.getD i default).weights.length := by omega
  have e1 := pairsMultiset_setParticle dpf i k p hi'
  have e2 := peMultiset_setParticleInPE (dpf.getD i default) k p hk1 hk2
  rw [pePairAt_eq_getParticle]
  have : pairsMultiset (setParticle dpf i k p) +
      {((dpf.getD i default).particles.getD k 0, (dpf.getD i default).weights.getD k 0)} +
        peMultiset (dpf.getD i default) =
      pairsMultiset dpf + {p} + peMultiset (dpf.getD i default) := by
    calc pairsMultiset (setParticle dpf i k p) +
        {((dpf.getD i default).particles.getD k 0,
          (dpf.getD i default).weights.getD k 0)} + peMultiset (dpf.getD i default)
        = (pairsMultiset (setParticle dpf i k p) + peMultiset (dpf.getD i default)) +
            {((dpf.getD i default).particles.getD k 0,
              (dpf.getD i default).weights.getD k 0)} := by abel
      _ = (pairsMultiset dpf +
            peMultiset (setParticleInPE (dpf.getD i default) k p)) +
            {((dpf.getD i default).particles.getD k 0,
              (dpf.getD i default).weights.getD k 0)} := by rw [e1]
      _ = pairsMultiset dpf +
            (peMultiset (setParticleInPE (dpf.getD i default) k p) +
              {((dpf.getD i default).particles.getD k 0,
                (dpf.getD i default).weights.getD k 0)}) := by abel
      _ = pairsMultiset dpf + (peMultiset (dpf.getD i default) + {p}) := by rw [e2]
      _ = pairsMultiset dpf + {p} + peMultiset (dpf.getD i default) := by abel
  exact add_right_cancel this

theorem validState_swapLive {nPEs K : ℕ} {s : List PEState}
    (hv : ValidState nPEs K s) (t : ExchangeTuple) :
    ValidState nPEs K (swapLive s t) :=
  validState_setParticle (validState_setParticle hv _ _ _) _ _ _

theorem pairsMultiset_swapLive {nPEs K : ℕ} (s : List PEState) (t : ExchangeTuple)
    (hv : ValidState nPEs K s) (ht : TupleInRange nPEs K t)
    (hne : (t.iPE, t.iParticleWithinPE) ≠ (t.iNeighbour, t.iParticleWithinNeighbour)) :
    pairsMultiset (swapLive s t) = pairsMultiset s := by
  obtain ⟨hti, htj, htka, htkb⟩ := ht
  have hv1 : ValidState nPEs K (setParticle s t.iPE t.iParticleWithinPE
      (getParticle s t.iNeighbour t.iParticleWithinNeighbour)) :=
    validState_setParticle hv _ _ _
  have e1 := pairsMultiset_setParticle_add s t.iPE t.iParticleWithinPE
    (getParticle s t.iNeighbour t.iParticleWithinNeighbour) hv hti htka
  have e2 := pairsMultiset_setParticle_add
    (setParticle s t.iPE t.iParticleWithinPE
      (getParticle s t.iNeighbour t.iParticleWithinNeighbour))
    t.iNeighbour t.iParticleWithinNeighbour
    (getParticle s t.iPE t.iParticleWithinPE) hv1 htj htkb
  have hgb : getParticle (setParticle s t.iPE t.iParticleWithinPE
      (getParticle s t.iNeighbour t.iParticleWithinNeighbour))
      t.iNeighbour t.iParticleWithinNeighbour =
      getParticle s t.iNeighbour t.iParticleWithinNeighbour :=
    getParticle_setParticle_ne s t.iPE t.iParticleWithinPE _ _ (Ne.symm hne)
  rw [hgb] at e2
  have : pairsMultiset (swapLive s t) +
      {getParticle s t.iNeighbour t.iParticleWithinNeighbour} =
      pairsMultiset s +
        {getParticle s t.iNeighbour t.iParticleWithinNeighbour} := by
    calc pairsMultiset (swapLive s t) +
        {getParticle s t.iNeighbour t.iParticleWithinNeighbour} =
        pairsMultiset (setParticle s t.iPE t.iParticleWithinPE
          (getParticle s t.iNeighbour t.iParticleWithinNeighbour)) +
          {getParticle s t.iPE t.iParticleWithinPE} := e2
      _ = pairsMultiset s +
          {getParticle s t.iNeighbour t.iParticleWithinNeighbour} := e1
  exact add_right_cancel this

theorem mem_tupleUses_fst (t : ExchangeTuple) :
    (t.iPE, t.iParticleWithinPE) ∈ tupleUses t := by
  unfold tupleUses
  exact List.mem_cons_self _ _

theorem mem_tupleUses_snd (t : ExchangeTuple) :
    (t.iNeighbour, t.iParticleWithinNeighbour) ∈ tupleUses t := by
  unfold tupleUses
  exact List.mem_cons_of_mem _ (List.mem_cons_self _ _)

theorem mem_planUses_of_mem {t : ExchangeTuple} {ts : List ExchangeTuple} (ht : t ∈ ts)
    {pq : ℕ × ℕ} (hpq : pq ∈ tupleUses t) : pq ∈ planUses ts :=
  List.mem_flatMap.mpr ⟨t, ht, hpq⟩

theorem planUses_cons (t : ExchangeTuple) (ts : List ExchangeTuple) :
    planUses (t :: ts) = tupleUses t ++ planUses ts := rfl

theorem getParticle_swapWrite_notMem (s : List PEState) (t : ExchangeTuple)
    (pr : (ℚ × ℚ) × (ℚ × ℚ)) (pq : ℕ × ℕ) (h : pq ∉ tupleUses t) :
    getParticle (swapWrite s t pr) pq.1 pq.2 = getParticle s pq.1 pq.2 := by
  have h1 : pq ≠ (t.iPE, t.iParticleWithinPE) := fun he => h (he ▸ mem_tupleUses_fst t)
  have h2 : pq ≠ (t.iNeighbour, t.iParticleWithinNeighbour) :=
    fun he => h (he ▸ mem_tupleUses_snd t)
  unfold swapWrite
  rw [getParticle_setParticle_ne _ _ _ _ _ h2, getParticle_setParticle_ne _ _ _ _ _ h1]

theorem getParticle_swapLive_notMem (s : List PEState) (t : ExchangeTuple)
    (pq : ℕ × ℕ) (h : pq ∉ tupleUses t) :
    getParticle (swapLive s t) pq.1 pq.2 = getParticle s pq.1 pq.2 :=
  getParticle_swapWrite_notMem s t _ pq h

theorem foldl_swapLive_notMem (ts : List ExchangeTuple) (s : List PEState)
    (pq : ℕ × ℕ) (h : pq ∉ planUses ts) :
    getParticle (ts.foldl swapLive s) pq.1 pq.2 = getParticle s pq.1 pq.2 := by
  induction ts generalizing s with
  | nil => rfl
  | cons u ts ih =>
    rw [planUses_cons] at h
    have hu : pq ∉ tupleUses u := fun hm => h (List.mem_append_left _ hm)
    have hts : pq ∉ planUses ts := fun hm => h (List.mem_append_right _ hm)
    show getParticle (ts.foldl swapLive (swapLive s u)) pq.1 pq.2 = _
    rw [ih (swapLive s u) hts, getParticle_swapLive_notMem s u pq hu]

theorem getParticle_swapLive_self {nPEs K : ℕ} (s : List PEState) (t : ExchangeTuple)
    (hv : ValidState nPEs K s) (ht : TupleInRange nPEs K t)
    (hne : (t.iPE, t.iParticleWithinPE) ≠ (t.iNeighbour, t.iParticleWithinNeighbour)) :
    getParticle (swapLive s t) t.iPE t.iParticleWithinPE =
        getParticle s t.iNeighbour t.iParticleWithinNeighbour ∧
      getParticle (swapLive s t) t.iNeighbour t.iParticleWithinNeighbour =
        getParticle s t.iPE t.iParticleWithinPE := by
  obtain ⟨hti, htj, htka, htkb⟩ := ht
  have hlen : s.length = nPEs := hv.1
  have hv1 : ValidState nPEs K (setParticle s t.iPE t.iParticleWithinPE
      (getParticle s t.iNeighbour t.iParticleWithinNeighbour)) :=
    validState_setParticle hv _ _ _
  have hshow : swapLive s t = setParticle
      (setParticle s t.iPE t.iParticleWithinPE
        (getParticle s t.iNeighbour t.iParticleWithinNeighbour))
      t.iNeighbour t.iParticleWithinNeighbour
      (getParticle s t.iPE t.iParticleWithinPE) := rfl
  rw [hshow]
  constructor
  · rw [getParticle_setParticle_ne _ _ _ _ _ hne]
    obtain ⟨h1, h2⟩ := hv.2 _ (peState_getD_mem s t.iPE (by omega))
    exact getParticle_setParticle_eq s t.iPE t.iParticleWithinPE _ (by omega)
      (by omega) (by omega)
  · obtain ⟨h1, h2⟩ := hv1.2 _ (peState_getD_mem _ t.iNeighbour
      (by rw [hv1.1]; omega))
    exact getParticle_setParticle_eq _ t.iNeighbour t.iParticleWithinNeighbour _
      (by rw [hv1.1]; omega) (by omega) (by omega)

theorem nodup_tupleUses_ne {t : ExchangeTuple} (h : (tupleUses t).Nodup) :
    (t.iPE, t.iParticleWithinPE) ≠ (t.iNeighbour, t.iParticleWithinNeighbour) := by
  unfold tupleUses at h
  intro he
  rw [he] at h
  simp at h

theorem foldl_swapLive_validState {nPEs K : ℕ} (ts : List ExchangeTuple)
    {s : List PEState} (hv : ValidState nPEs K s) :
    ValidState nPEs K (ts.foldl swapLive s) := by
  induction ts generalizing s with
  | nil => exact hv
  | cons u ts ih => exact ih (validState_swapLive hv u)

theorem foldl_swapLive_pairs {nPEs K : ℕ} (ts : List ExchangeTuple) (s : List PEState)
    (hnd : (planUses ts).Nodup) (hv : ValidState nPEs K s)
    (hts : ∀ t ∈ ts, TupleInRange nPEs K t) :
    ∀ t ∈ ts,
      getParticle (ts.foldl swapLive s) t.iPE t.iParticleWithinPE =
          getParticle s t.iNeighbour t.iParticleWithinNeighbour ∧
        getParticle (ts.foldl swapLive s) t.iNeighbour t.iParticleWithinNeighbour =
          getParticle s t.iPE t.iParticleWithinPE := by
  induction ts generalizing s with
  | nil => intro t ht; cases ht
  | cons u ts ih =>
    rw [planUses_cons] at hnd
    obtain ⟨hndu, hndts, hdisj⟩ := List.nodup_append.mp hnd
    have hneu := nodup_tupleUses_ne hndu
    intro t ht
    rcases List.mem_cons.mp ht with rfl | hts'
    · have hA : (t.iPE, t.iParticleWithinPE) ∉ planUses ts :=
        fun hm => hdisj (mem_tupleUses_fst t) hm
      have hB : (t.iNeighbour, t.iParticleWithinNeighbour) ∉ planUses ts :=
        fun hm => hdisj (mem_tupleUses_snd t) hm
      obtain ⟨eA, eB⟩ := getParticle_swapLive_self s t hv
        (hts t (List.mem_cons_self _ _)) hneu
      show getParticle (ts.foldl swapLive (swapLive s t)) t.iPE t.iParticleWithinPE = _ ∧
        getParticle (ts.foldl swapLive (swapLive s t)) t.iNeighbour
          t.iParticleWithinNeighbour = _
      rw [foldl_swapLive_notMem ts _ _ hA, foldl_swapLive_notMem ts _ _ hB]
      exact ⟨eA, eB⟩
    · have hvu : ValidState nPEs K (swapLive s u) := validState_swapLive hv u
      have htsrest : ∀ t' ∈ ts, TupleInRange nPEs K t' :=
        fun t' ht' => hts t' (List.mem_cons_of_mem _ ht')
      obtain ⟨eA, eB⟩ := ih (swapLive s u) hndts hvu htsrest t hts'
      have hA : (t.iPE, t.iParticleWithinPE) ∉ tupleUses u := by
        intro hm
        exact hdisj hm (mem_planUses_of_mem hts' (mem_tupleUses_fst t))
      have hB : (t.iNeighbour, t.iParticleWithinNeighbour) ∉ tupleUses u := by
        intro hm
        exact hdisj hm (mem_planUses_of_mem hts' (mem_tupleUses_snd t))
      show getParticle (ts.foldl swapLive (swapLive s u)) t.iPE t.iParticleWithinPE = _ ∧
        getParticle (ts.foldl swapLive (swapLive s u)) t.iNeighbour
          t.iParticleWithinNeighbour = _
      rw [eA, eB, getParticle_swapLive_notMem s u _ hA,
        getParticle_swapLive_notMem s u _ hB]
      exact ⟨rfl, rfl⟩

theorem foldl_swapLive_pairsMultiset {nPEs K : ℕ} (ts : List ExchangeTuple)
    (s : List PEState) (hnd : (planUses ts).Nodup) (hv : ValidState nPEs K s)
    (hts : ∀ t ∈ ts, TupleInRange nPEs K t) :
    pairsMultiset (ts.foldl swapLive s) = pairsMultiset s := by
  induction ts generalizing s with
  | nil => rfl
  | cons u ts ih =>
    rw [planUses_cons] at hnd
    obtain ⟨hndu, hndts, hdisj⟩ := List.nodup_append.mp hnd
    show pairsMultiset (ts.foldl swapLive (swapLive s u)) = pairsMultiset s
    rw [ih (swapLive s u) hndts (validState_swapLive hv u)
      (fun t' ht' => hts t' (List.mem_cons_of_mem _ ht'))]
    exact pairsMultiset_swapLive s u hv (hts u (List.mem_cons_self _ _))
      (nodup_tupleUses_ne hndu)

theorem foldl_write_snapshot (tuples : List ExchangeTuple) (dpf s : List PEState)
    (hnd : (planUses tuples).Nodup)
    (hagree : ∀ pq ∈ planUses tuples,
      getParticle s pq.1 pq.2 = getParticle dpf pq.1 pq.2) :
    (tuples.zip (exchangeSnapshot dpf tuples)).foldl
        (fun x tp => swapWrite x tp.1 tp.2) s =
      tuples.foldl swapLive s := by
  induction tuples generalizing s with
  | nil => rfl
  | cons t ts ih =>
    rw [planUses_cons] at hnd
    obtain ⟨hndu, hndts, hdisj⟩ := List.nodup_append.mp hnd
    have hsnap : exchangeSnapshot dpf (t :: ts) =
        (getParticle dpf t.iPE t.iParticleWithinPE,
          getParticle dpf t.iNeighbour t.iParticleWithinNeighbour) ::
          exchangeSnapshot dpf ts := rfl
    rw [hsnap]
    show ((t, _) :: ts.zip (exchangeSnapshot dpf ts)).foldl
        (fun x tp => swapWrite x tp.1 tp.2) s = (t :: ts).foldl swapLive s
    have hstep : swapWrite s t
        (getParticle dpf t.iPE t.iParticleWithinPE,
          getParticle dpf t.iNeighbour t.iParticleWithinNeighbour) = swapLive s t := by
      unfold swapLive
      rw [hagree _ (List.mem_append_left _ (mem_tupleUses_fst t)),
        hagree _ (List.mem_append_left _ (mem_tupleUses_snd t))]
    show (ts.zip (exchangeSnapshot dpf ts)).foldl (fun x tp => swapWrite x tp.1 tp.2)
        (swapWrite s t _) = ts.foldl swapLive (swapLive s t)
    rw [hstep]
    refine ih (swapLive s t) hndts ?_
    intro pq hpq
    rw [getParticle_swapLive_notMem s t pq (fun hm => hdisj hm hpq)]
    exact hagree pq (List.mem_append_right _ hpq)

theorem performExchange_eq_foldl (tuples : List ExchangeTuple) (dpf : List PEState)
    (hnd : (planUses tuples).Nodup) :
    performExchange tuples dpf = tuples.foldl swapLive dpf :=
  foldl_write_snapshot tuples dpf dpf hnd (fun _ _ => rfl)

/-- C1: for every DRNA exchange plan (each (PE, slot) position used by at most
one tuple, all indices in range) and every well-formed DPF state,
`performExchange` preserves the multiset of (particle, weight) pairs over the
union of all PEs, and each tuple's two slots end up holding each other's old
(particle, weight) values, exactly as if all old values were snapshotted
before any write. -/
theorem C1_perform_exchange_preserves_pairs (nPEs K : ℕ)
    (tuples : List ExchangeTuple) (dpf : List PEState)
    (hplan : ValidPlan nPEs K tuples) (hstate : ValidState nPEs K dpf) :
    pairsMultiset (performExchange tuples dpf) = pairsMultiset dpf ∧
      ∀ t ∈ tuples,
        getParticle (performExchange tuples dpf) t.iPE t.iParticleWithinPE =
            getParticle dpf t.iNeighbour t.iParticleWithinNeighbour ∧
          getParticle (performExchange tuples dpf) t.iNeighbour
              t.iParticleWithinNeighbour =
            getParticle dpf t.iPE t.iParticleWithinPE := by
  obtain ⟨hnd, hrange⟩ := hplan
  rw [performExchange_eq_foldl tuples dpf hnd]
  exact ⟨foldl_swapLive_pairsMultiset tuples dpf hnd hstate hrange,
    foldl_swapLive_pairs tuples dpf hnd hstate hrange⟩

/-- Witness for C1: a concrete two-PE state and a one-tuple plan. -/
theorem C1_witness :
    ValidPlan 2 2 [⟨0, 0, 1, 1⟩] ∧
      ValidState 2 2 [⟨[10, 11], [1, 2], 3⟩, ⟨[20, 21], [4, 5], 9⟩] ∧
      pairsMultiset (performExchange [⟨0, 0, 1, 1⟩]
          [⟨[10, 11], [1, 2], 3⟩, ⟨[20, 21], [4, 5], 9⟩]) =
        pairsMultiset [⟨[10, 11], [1, 2], 3⟩, ⟨[20, 21], [4, 5], 9⟩] :=
  ⟨by decide, by decide,
    (C1_perform_exchange_preserves_pairs 2 2 [⟨0, 0, 1, 1⟩]
      [⟨[10, 11], [1, 2], 3⟩, ⟨[20, 21], [4, 5], 9⟩] (by decide) (by decide)).1⟩

theorem pairList_mem {neighbours : List (List ℕ)} {pr : ℕ × ℕ}
    (h : pr ∈ pairList neighbours) :
    pr.1 < neighbours.length ∧ pr.2 ∈ neighbours.getD pr.1 [] := by
  unfold pairList at h
  obtain ⟨il, hil, hpr⟩ := List.mem_flatMap.mp h
  obtain ⟨j, hj, rfl⟩ := List.mem_map.mp hpr
  have hget : neighbours[il.1]? = some il.2 := by
    have : (il.1, il.2) ∈ neighbours.enum := by simpa using hil
    exact List.mem_enum_iff_getElem?.mp this
  have hlt : il.1 < neighbours.length := by
    by_contra hge
    rw [List.getElem?_eq_none (by omega)] at hget
    cases hget
  refine ⟨hlt, ?_⟩
  rw [List.getD_eq_getElem?_getD, hget]
  exact hj

theorem nodup_availableSlots (K : ℕ) (ns : ℕ → ℕ → Bool) (p : ℕ) :
    (availableSlots K ns p).Nodup :=
  (List.nodup_range K).filter _

theorem mem_availableSlots {K : ℕ} {ns : ℕ → ℕ → Bool} {p s : ℕ} :
    s ∈ availableSlots K ns p ↔ s < K ∧ ns p s = true := by
  unfold availableSlots
  rw [List.mem_filter, List.mem_range]

theorem markSwapped_preserves_false {ns : ℕ → ℕ → Bool} {p : ℕ} {c : List ℕ}
    {q s : ℕ} (h : ns q s = false) : markSwapped ns p c q s = false := by
  unfold markSwapped
  split
  · rfl
  · exact h

theorem markSwapped_other {ns : ℕ → ℕ → Bool} {p : ℕ} (c : List ℕ) {q : ℕ}
    (h : q ≠ p) (s : ℕ) : markSwapped ns p c q s = ns q s := by
  unfold markSwapped
  rw [if_neg (fun hc => h hc.1)]

theorem markSwapped_mem {ns : ℕ → ℕ → Bool} {p : ℕ} {c : List ℕ} {s : ℕ}
    (h : s ∈ c) : markSwapped ns p c p s = false := by
  unfold markSwapped
  rw [if_pos ⟨rfl, h⟩]

theorem availableSlots_markSwapped_other {K : ℕ} {ns : ℕ → ℕ → Bool} {p q : ℕ}
    (c : List ℕ) (h : q ≠ p) :
    availableSlots K (markSwapped ns p c) q = availableSlots K ns q := by
  unfold availableSlots
  exact List.filter_congr (fun s _ => markSwapped_other c h s)

theorem length_filter_split (l : List ℕ) (p : ℕ → Bool) :
    l.length = (l.filter p).length + (l.filter (fun x => ! p x)).length := by
  induction l with
  | nil => rfl
  | cons x l ih =>
    rw [List.filter_cons, List.filter_cons]
    by_cases hpx : p x = true
    · rw [if_pos hpx, if_neg (by simp [hpx])]
      simp only [List.length_cons]
      omega
    · have hpx' : p x = false := by simpa using hpx
      rw [if_neg hpx, if_pos (by simp [hpx'])]
      simp only [List.length_cons]
      omega

theorem length_filter_mem_le {l c : List ℕ} (hl : l.Nodup) :
    (l.filter (fun s => decide (s ∈ c))).length ≤ c.length := by
  have hnd : (l.filter (fun s => decide (s ∈ c))).Nodup := hl.filter _
  have hsub : (l.filter (fun s => decide (s ∈ c))).toFinset ⊆ c.toFinset := by
    intro x hx
    rw [List.mem_toFinset] at hx
    rw [List.mem_toFinset]
    simpa using (List.mem_filter.mp hx).2
  calc (l.filter (fun s => decide (s ∈ c))).length
      = (l.filter (fun s => decide (s ∈ c))).toFinset.card :=
        (List.toFinset_card_of_nodup hnd).symm
    _ ≤ c.toFinset.card := Finset.card_le_card hsub
    _ ≤ c.length := c.toFinset_card_le

theorem length_availableSlots_markSwapped_ge {K : ℕ} (ns : ℕ → ℕ → Bool) (p : ℕ)
    (c : List ℕ) :
    (availableSlots K ns p).length ≤
      (availableSlots K (markSwapped ns p c) p).length + c.length := by
  have hrow : availableSlots K (markSwapped ns p c) p =
      (availableSlots K ns p).filter (fun s => ! decide (s ∈ c)) := by
    unfold availableSlots
    rw [List.filter_filter]
    refine List.filter_congr ?_
    intro s _
    unfold markSwapped
    by_cases hc : s ∈ c
    · rw [if_pos ⟨rfl, hc⟩]
      simp [hc]
    · rw [if_neg (fun hx => hc hx.2)]
      simp [hc]
  rw [hrow]
  have hsplit := length_filter_split (availableSlots K ns p)
    (fun s => decide (s ∈ c))
  have hle := length_filter_mem_le (c := c) (nodup_availableSlots K ns p)
  omega

theorem length_filter_or_eq {l : List ℕ} (p : ℕ → Bool) {a : ℕ} (hl : l.Nodup)
    (ha : a ∈ l) (hpa : p a = false) :
    (l.filter (fun x => p x || decide (x = a))).length = (l.filter p).length + 1 := by
  induction l with
  | nil => cases ha
  | cons x l ih =>
    rcases List.nodup_cons.mp hl with ⟨hx, hl'⟩
    rcases List.mem_cons.mp ha with rfl | ha'
    · have hcong : l.filter (fun y => p y || decide (y = a)) = l.filter p := by
        refine List.filter_congr ?_
        intro y hy
        have hya : y ≠ a := fun he => hx (he ▸ hy)
        simp [hya]
      rw [List.filter_cons, List.filter_cons, hpa]
      simp only [Bool.false_or, decide_eq_true_eq]
      rw [if_pos (by trivial), if_neg (by simp)]
      rw [List.length_cons, hcong]
    · have hxa : x ≠ a := fun he => hx (he ▸ ha')
      rw [List.filter_cons, List.filter_cons]
      by_cases hpx : p x = true
      · rw [if_pos (by simp [hpx]), if_pos hpx]
        simp only [List.length_cons]
        rw [ih hl' ha']
      · have hpx' : p x = false := Bool.not_eq_true _ ▸ by simpa using hpx
        rw [if_neg (by simp [hpx', hxa]), if_neg (by simp [hpx'])]
        exact ih hl' ha'

theorem mem_uses_zipTuples {i j : ℕ} {A B : List ℕ} {pq : ℕ × ℕ}
    (h : pq ∈ planUses ((A.zip B).map
      (fun ab => (⟨i, ab.1, j, ab.2⟩ : ExchangeTuple)))) :
    (pq.1 = i ∧ pq.2 ∈ A) ∨ (pq.1 = j ∧ pq.2 ∈ B) := by
  obtain ⟨t, htm, hpq⟩ := List.mem_flatMap.mp h
  obtain ⟨ab, habm, rfl⟩ := List.mem_map.mp htm
  obtain ⟨ha, hb⟩ := List.of_mem_zip habm
  unfold tupleUses at hpq
  rcases List.mem_cons.mp hpq with rfl | hpq'
  · exact Or.inl ⟨rfl, ha⟩
  · rcases List.mem_cons.mp hpq' with rfl | hpq''
    · exact Or.inr ⟨rfl, hb⟩
    · cases hpq''

theorem nodup_uses_zipTuples {i j : ℕ} (hij : i ≠ j) {A B : List ℕ}
    (hA : A.Nodup) (hB : B.Nodup) :
    (planUses ((A.zip B).map
      (fun ab => (⟨i, ab.1, j, ab.2⟩ : ExchangeTuple)))).Nodup := by
  induction A generalizing B with
  | nil => exact List.nodup_nil
  | cons a A ih =>
    cases B with
    | nil => exact List.nodup_nil
    | cons b B =>
      rcases List.nodup_cons.mp hA with ⟨haA, hA'⟩
      rcases List.nodup_cons.mp hB with ⟨hbB, hB'⟩
      have hrest := ih hA' hB'
      show ((i, a) :: (j, b) :: planUses ((A.zip B).map
        (fun ab => (⟨i, ab.1, j, ab.2⟩ : ExchangeTuple)))).Nodup
      refine List.nodup_cons.mpr ⟨?_, List.nodup_cons.mpr ⟨?_, hrest⟩⟩
      · intro hmem
        rcases List.mem_cons.mp hmem with heq | hmem'
        · exact hij (congrArg Prod.fst heq)
        · rcases mem_uses_zipTuples hmem' with ⟨_, hmA⟩ | ⟨hfst, _⟩
          · exact haA hmA
          · exact hij hfst
      · intro hmem
        rcases mem_uses_zipTuples hmem with ⟨hfst, _⟩ | ⟨_, hmB⟩
        · exact hij hfst.symm
        · exact hbB hmB

theorem le_foldr_max_of_mem {l : List ℕ} {x : ℕ} (h : x ∈ l) :
    x ≤ l.foldr Nat.max 0 := by
  induction l with
  | nil => cases h
  | cons a l ih =>
    rcases List.mem_cons.mp h with rfl | h'
    · exact Nat.le_max_left _ _
    · exact le_trans (ih h') (Nat.le_max_right _ _)

theorem degree_le_maxDegree {neighbours : List (List ℕ)} {i : ℕ}
    (h : i < neighbours.length) :
    (neighbours.getD i []).length ≤ maxDegree neighbours := by
  have hmem : (neighbours.getD i []).length ∈ neighbours.map List.length := by
    rw [List.getD_eq_getElem _ _ h]
    exact List.mem_map.mpr ⟨neighbours[i], List.getElem_mem h, rfl⟩
  exact le_foldr_max_of_mem hmem

theorem lt_length_of_getD_ne_nil {neighbours : List (List ℕ)} {j : ℕ}
    (h : neighbours.getD j [] ≠ []) : j < neighbours.length := by
  by_contra hge
  exact h (List.getD_eq_default _ _ (by omega))

theorem appendAt_entry {l : List (List (ℕ × List ℕ))} {i : ℕ} {x : ℕ × List ℕ} :
    ∀ y ∈ appendAt l i x, ∀ e ∈ y, (∃ y' ∈ l, e ∈ y') ∨ e = x := by
  intro y hy e he
  unfold appendAt at hy
  rcases List.mem_or_eq_of_mem_set hy with hy' | rfl
  · exact Or.inl ⟨y, hy', he⟩
  · rcases List.mem_append.mp he with he' | he'
    · by_cases hi : i < l.length
      · refine Or.inl ⟨l.getD i [], ?_, he'⟩
        rw [List.getD_eq_getElem _ _ hi]
        exact List.getElem_mem hi
      · rw [List.getD_eq_default _ _ (by omega)] at he'
        cases he'
    · rcases List.mem_singleton.mp he' with rfl
      exact Or.inr rfl

theorem planUses_append (l1 l2 : List ExchangeTuple) :
    planUses (l1 ++ l2) = planUses l1 ++ planUses l2 :=
  List.flatMap_append l1 l2 tupleUses

theorem planFold_safety {choose : ℕ → List ℕ → ℕ → Option (List ℕ)}
    (horacle : ChoiceOracle choose) {neighbours : List (List ℕ)} {K E : ℕ}
    (hirr : ∀ i < neighbours.length, i ∉ neighbours.getD i []) :
    ∀ (pairs : List (ℕ × ℕ)) (st st' : PlanState),
      (∀ pr ∈ pairs, pr.1 < neighbours.length ∧ pr.2 ∈ neighbours.getD pr.1 []) →
      pairs.foldlM (processPair choose K E) st = Except.ok st' →
      PlanSafetyInv neighbours st → PlanSafetyInv neighbours st' := by
  intro pairs
  induction pairs with
  | nil =>
    intro st st' _ hfold hinv
    simp only [List.foldlM_nil] at hfold
    cases hfold
    exact hinv
  | cons pr rest ih =>
    intro st st' hvalid hfold hinv
    obtain ⟨i, j⟩ := pr
    have hprv := hvalid (i, j) (List.mem_cons_self _ _)
    have hvalid' : ∀ pr ∈ rest,
        pr.1 < neighbours.length ∧ pr.2 ∈ neighbours.getD pr.1 [] :=
      fun pr h => hvalid pr (List.mem_cons_of_mem _ h)
    rw [List.foldlM_cons] at hfold
    unfold processPair at hfold
    by_cases hmem : (i, j) ∈ st.alreadyProcessedPEs
    · rw [if_pos hmem] at hfold
      have hfold' : rest.foldlM (processPair choose K E) st = Except.ok st' := by
        simpa using hfold
      exact ih st st' hvalid' hfold' hinv
    · rw [if_neg hmem] at hfold
      have hij : i ≠ j := by
        intro he
        subst he
        exact hirr i hprv.1 hprv.2
      cases hcA : choose st.prngCounter
          (availableSlots K st.iNotSwappedYetParticles i) E with
      | none =>
        rw [hcA] at hfold
        exact Except.noConfusion hfold
      | some chosenA =>
        cases hcB : choose (st.prngCounter + 1)
            (availableSlots K st.iNotSwappedYetParticles j) E with
        | none =>
          rw [hcA, hcB] at hfold
          exact Except.noConfusion hfold
        | some chosenB =>
          rw [hcA, hcB] at hfold
          have hOA := horacle st.prngCounter
            (availableSlots K st.iNotSwappedYetParticles i) E
            (nodup_availableSlots _ _ _)
          rw [hcA] at hOA
          have hOB := horacle (st.prngCounter + 1)
            (availableSlots K st.iNotSwappedYetParticles j) E
            (nodup_availableSlots _ _ _)
          rw [hcB] at hOB
          obtain ⟨hndA, hsubA, hlenA⟩ := hOA
          obtain ⟨hndB, hsubB, hlenB⟩ := hOB
          obtain ⟨hnd, hfalse, hnbr⟩ := hinv
          have hfold' : rest.foldlM (processPair choose K E)
              { alreadyProcessedPEs := (i, j) :: (j, i) :: st.alreadyProcessedPEs,
                iNotSwappedYetParticles :=
                  markSwapped (markSwapped st.iNotSwappedYetParticles i chosenA)
                    j chosenB,
                exchangeTuples := st.exchangeTuples ++
                  (chosenA.zip chosenB).map
                    (fun ab => (⟨i, ab.1, j, ab.2⟩ : ExchangeTuple)),
                neighboursParticles :=
                  appendAt (appendAt st.neighboursParticles i (j, chosenA)) j
                    (i, chosenB),
                prngCounter := st.prngCounter + 2 } = Except.ok st' := by
            simpa using hfold
          refine ih _ st' hvalid' hfold' ?_
          have hnew : (planUses ((chosenA.zip chosenB).map
              (fun ab => (⟨i, ab.1, j, ab.2⟩ : ExchangeTuple)))).Nodup :=
            nodup_uses_zipTuples hij hndA hndB
          have hdisj : ∀ pq ∈ planUses st.exchangeTuples,
              pq ∉ planUses ((chosenA.zip chosenB).map
                (fun ab => (⟨i, ab.1, j, ab.2⟩ : ExchangeTuple))) := by
            intro pq hold hm
            rcases mem_uses_zipTuples hm with ⟨h1, h2⟩ | ⟨h1, h2⟩
            · have htrue : st.iNotSwappedYetParticles i pq.2 = true :=
                (mem_availableSlots.mp (hsubA _ h2)).2
              rw [← h1] at htrue
              rw [hfalse pq hold] at htrue
              cases htrue
            · have htrue : st.iNotSwappedYetParticles j pq.2 = true :=
                (mem_availableSlots.mp (hsubB _ h2)).2
              rw [← h1] at htrue
              rw [hfalse pq hold] at htrue
              cases htrue
          refine ⟨?_, ?_, ?_⟩
          · show (planUses (st.exchangeTuples ++ _)).Nodup
            rw [planUses_append]
            exact List.nodup_append.mpr ⟨hnd, hnew, fun pq hpq => hdisj pq hpq⟩
          · show ∀ pq ∈ planUses (st.exchangeTuples ++ _), _
            intro pq hpq
            rw [planUses_append] at hpq
            rcases List.mem_append.mp hpq with hold | hnewm
            · exact markSwapped_preserves_false
                (markSwapped_preserves_false (hfalse pq hold))
            · rcases mem_uses_zipTuples hnewm with ⟨h1, h2⟩ | ⟨h1, h2⟩
              · show markSwapped (markSwapped st.iNotSwappedYetParticles i chosenA)
                  j chosenB pq.1 pq.2 = false
                rw [h1, markSwapped_other chosenB hij]
                exact markSwapped_mem h2
              · show markSwapped (markSwapped st.iNotSwappedYetParticles i chosenA)
                  j chosenB pq.1 pq.2 = false
                rw [h1]
                exact markSwapped_mem h2
          · show ∀ t ∈ st.exchangeTuples ++ _, _
            intro t ht
            rcases List.mem_append.mp ht with hold | hnewm
            · exact hnbr t hold
            · obtain ⟨ab, _, rfl⟩ := List.mem_map.mp hnewm
              exact hprv.2

theorem takeChoice_oracle : ChoiceOracle takeChoice := by
  intro c pool n hnd
  unfold takeChoice
  by_cases hn : n ≤ pool.length
  · rw [if_pos hn]
    refine ⟨(List.take_sublist n pool).nodup hnd, ?_, ?_⟩
    · intro x hx
      exact List.take_subset n pool hx
    · rw [List.length_take]
      omega
  · rw [if_neg hn]
    omega

/-- C6: whenever the DRNA plan construction succeeds, every (PE, slot)
position occurs in at most one exchange tuple of the round, and every tuple
joins two neighbouring PEs. -/
theorem C6_drna_plan_slots_unique (neighbours : List (List ℕ)) (K E : ℕ)
    (choose : ℕ → List ℕ → ℕ → Option (List ℕ))
    (tuples : List ExchangeTuple) (nps : List (List (ℕ × List ℕ)))
    (horacle : ChoiceOracle choose)
    (hirr : ∀ i < neighbours.length, i ∉ neighbours.getD i [])
    (hok : drnaPlan neighbours K E choose = Except.ok (tuples, nps)) :
    (planUses tuples).Nodup ∧
      ∀ t ∈ tuples, t.iNeighbour ∈ neighbours.getD t.iPE [] := by
  unfold drnaPlan at hok
  by_cases hE : E = 0
  · rw [if_pos hE] at hok
    exact Except.noConfusion hok
  · rw [if_neg hE] at hok
    cases hfold : (pairList neighbours).foldlM (processPair choose K E)
        (initPlanState neighbours.length) with
    | error e =>
      rw [hfold] at hok
      exact Except.noConfusion hok
    | ok stf =>
      rw [hfold] at hok
      have hok' : Except.ok (stf.exchangeTuples, stf.neighboursParticles) =
          Except.ok (tuples, nps) := hok
      have hpair : (stf.exchangeTuples, stf.neighboursParticles) = (tuples, nps) :=
        Except.ok.inj hok'
      have hinit : PlanSafetyInv neighbours (initPlanState neighbours.length) := by
        refine ⟨List.nodup_nil, ?_, ?_⟩
        · intro pq h
          cases h
        · intro t h
          cases h
      have hinv : PlanSafetyInv neighbours stf :=
        planFold_safety horacle hirr (pairList neighbours) _ stf
          (fun pr hpr => pairList_mem hpr) hfold hinit
      obtain ⟨h1, h2, h3⟩ := hinv
      have ht : stf.exchangeTuples = tuples := congrArg Prod.fst hpair
      rw [← ht]
      exact ⟨h1, h3⟩

/-- Witness for C6 on a two-PE line with one exchanged particle. -/
theorem C6_witness :
    ChoiceOracle takeChoice ∧
      (planUses [⟨0, 0, 1, 0⟩]).Nodup ∧
      ∀ t ∈ [(⟨0, 0, 1, 0⟩ : ExchangeTuple)],
        t.iNeighbour ∈ ([[1], [0]] : List (List ℕ)).getD t.iPE [] :=
  ⟨takeChoice_oracle,
    C6_drna_plan_slots_unique [[1], [0]] 1 1 takeChoice [⟨0, 0, 1, 0⟩]
      [[(1, [0])], [(0, [0])]] takeChoice_oracle (by decide) (by rfl)⟩

theorem length_filter_procCons_self {row : List ℕ} {proc : List (ℕ × ℕ)} {i j : ℕ}
    (hnd : row.Nodup) (hj : j ∈ row) (hnotin : (i, j) ∉ proc) (hij : i ≠ j) :
    (row.filter (fun q => decide ((i, q) ∈ (i, j) :: (j, i) :: proc))).length =
      (row.filter (fun q => decide ((i, q) ∈ proc))).length + 1 := by
  have hcong : row.filter (fun q => decide ((i, q) ∈ (i, j) :: (j, i) :: proc)) =
      row.filter (fun q => decide ((i, q) ∈ proc) || decide (q = j)) := by
    refine List.filter_congr ?_
    intro q _
    rw [Bool.eq_iff_iff]
    simp only [decide_eq_true_eq, Bool.or_eq_true, List.mem_cons, Prod.mk.injEq]
    constructor
    · rintro (⟨h1, h2⟩ | ⟨h1, h2⟩ | h)
      · exact Or.inr h2
      · exact absurd h1 hij
      · exact Or.inl h
    · rintro (h | h)
      · exact Or.inr (Or.inr h)
      · exact Or.inl ⟨trivial, h⟩
  rw [hcong]
  exact length_filter_or_eq _ hnd hj (by simp [hnotin])

theorem length_filter_procCons_nbr {row : List ℕ} {proc : List (ℕ × ℕ)} {i j : ℕ}
    (hnd : row.Nodup) (hi : i ∈ row) (hnotin : (j, i) ∉ proc) (hij : i ≠ j) :
    (row.filter (fun q => decide ((j, q) ∈ (i, j) :: (j, i) :: proc))).length =
      (row.filter (fun q => decide ((j, q) ∈ proc))).length + 1 := by
  have hcong : row.filter (fun q => decide ((j, q) ∈ (i, j) :: (j, i) :: proc)) =
      row.filter (fun q => decide ((j, q) ∈ proc) || decide (q = i)) := by
    refine List.filter_congr ?_
    intro q _
    rw [Bool.eq_iff_iff]
    simp only [decide_eq_true_eq, Bool.or_eq_true, List.mem_cons, Prod.mk.injEq]
    constructor
    · rintro (⟨h1, h2⟩ | ⟨h1, h2⟩ | h)
      · exact absurd h1.symm hij
      · exact Or.inr h2
      · exact Or.inl h
    · rintro (h | h)
      · exact Or.inr (Or.inr h)
      · exact Or.inr (Or.inl ⟨trivial, h⟩)
  rw [hcong]
  exact length_filter_or_eq _ hnd hi (by simp [hnotin])

theorem filter_procCons_other {row : List ℕ} {proc : List (ℕ × ℕ)} {i j p : ℕ}
    (hpi : p ≠ i) (hpj : p ≠ j) :
    row.filter (fun q => decide ((p, q) ∈ (i, j) :: (j, i) :: proc)) =
      row.filter (fun q => decide ((p, q) ∈ proc)) := by
  refine List.filter_congr ?_
  intro q _
  rw [Bool.eq_iff_iff]
  simp only [decide_eq_true_eq, List.mem_cons, Prod.mk.injEq]
  constructor
  · rintro (⟨h1, h2⟩ | ⟨h1, h2⟩ | h)
    · exact absurd h1 hpi
    · exact absurd h1 hpj
    · exact h
  · exact fun h => Or.inr (Or.inr h)

theorem planFold_success {choose : ℕ → List ℕ → ℕ → Option (List ℕ)}
    (horacle : ChoiceOracle choose) {neighbours : List (List ℕ)} {K E : ℕ}
    (hirr : ∀ i < neighbours.length, i ∉ neighbours.getD i [])
    (hsym : ∀ i < neighbours.length, ∀ j ∈ neighbours.getD i [],
      i ∈ neighbours.getD j [])
    (hnodup : ∀ i < neighbours.length, (neighbours.getD i []).Nodup)
    (hEK : E * maxDegree neighbours < K) :
    ∀ (pairs : List (ℕ × ℕ)) (st : PlanState),
      (∀ pr ∈ pairs, pr.1 < neighbours.length ∧ pr.2 ∈ neighbours.getD pr.1 []) →
      PlanSuccessInv neighbours K E st →
      ∃ st', pairs.foldlM (processPair choose K E) st = Except.ok st' ∧
        PlanSuccessInv neighbours K E st' := by
  intro pairs
  induction pairs with
  | nil =>
    intro st _ hinv
    exact ⟨st, rfl, hinv⟩
  | cons pr rest ih =>
    intro st hvalid hinv
    obtain ⟨i, j⟩ := pr
    have hi : i < neighbours.length := (hvalid (i, j) (List.mem_cons_self _ _)).1
    have hjrow : j ∈ neighbours.getD i [] := (hvalid (i, j) (List.mem_cons_self _ _)).2
    have hvalid' : ∀ pr ∈ rest,
        pr.1 < neighbours.length ∧ pr.2 ∈ neighbours.getD pr.1 [] :=
      fun pr h => hvalid pr (List.mem_cons_of_mem _ h)
    obtain ⟨hsymm, hpool, hnps⟩ := hinv
    by_cases hmem : (i, j) ∈ st.alreadyProcessedPEs
    · obtain ⟨st', h1, h2⟩ := ih st hvalid' ⟨hsymm, hpool, hnps⟩
      refine ⟨st', ?_, h2⟩
      rw [List.foldlM_cons]
      show processPair choose K E st (i, j) >>= _ = _
      unfold processPair
      rw [if_pos hmem]
      exact h1
    · have hij : i ≠ j := by
        intro he
        subst he
        exact hirr i hi hjrow
    -- the PE side pool is large enough
      have hndrowi : (neighbours.getD i []).Nodup := hnodup i hi
      have hdegi : (neighbours.getD i []).length ≤ maxDegree neighbours :=
        degree_le_maxDegree hi
      have hcounti : countProcessed neighbours st i < (neighbours.getD i []).length := by
        unfold countProcessed
        exact List.length_filter_lt_length_iff_exists.mpr
          ⟨j, hjrow, by simp [hmem]⟩
      have hmul1 : E * countProcessed neighbours st i + E ≤
          E * (neighbours.getD i []).length := by
        have h := Nat.mul_le_mul_left E
          (show countProcessed neighbours st i + 1 ≤ (neighbours.getD i []).length by
            omega)
        rw [Nat.mul_succ] at h
        exact h
      have hmul2 : E * (neighbours.getD i []).length ≤ E * maxDegree neighbours :=
        Nat.mul_le_mul_left E hdegi
      have hpooli := hpool i
      have hElti : E < (availableSlots K st.iNotSwappedYetParticles i).length := by
        omega
      cases hcA : choose st.prngCounter
          (availableSlots K st.iNotSwappedYetParticles i) E with
      | none =>
        exfalso
        have h := horacle st.prngCounter
          (availableSlots K st.iNotSwappedYetParticles i) E
          (nodup_availableSlots _ _ _)
        rw [hcA] at h
        omega
      | some chosenA =>
        have hOA := horacle st.prngCounter
          (availableSlots K st.iNotSwappedYetParticles i) E
          (nodup_availableSlots _ _ _)
        rw [hcA] at hOA
        obtain ⟨hndA, hsubA, hlenA⟩ := hOA
    -- the neighbour side pool is large enough
        have hirowj : i ∈ neighbours.getD j [] := hsym i hi j hjrow
        have hj : j < neighbours.length :=
          lt_length_of_getD_ne_nil (List.ne_nil_of_mem hirowj)
        have hnotinj : (j, i) ∉ st.alreadyProcessedPEs :=
          fun h => hmem ((hsymm j i).mp h)
        have hndrowj : (neighbours.getD j []).Nodup := hnodup j hj
        have hdegj : (neighbours.getD j []).length ≤ maxDegree neighbours :=
          degree_le_maxDegree hj
        have hcountj : countProcessed neighbours st j <
            (neighbours.getD j []).length := by
          unfold countProcessed
          exact List.length_filter_lt_length_iff_exists.mpr
            ⟨i, hirowj, by simp [hnotinj]⟩
        have hmul1j : E * countProcessed neighbours st j + E ≤
            E * (neighbours.getD j []).length := by
          have h := Nat.mul_le_mul_left E
            (show countProcessed neighbours st j + 1 ≤
              (neighbours.getD j []).length by omega)
          rw [Nat.mul_succ] at h
          exact h
        have hmul2j : E * (neighbours.getD j []).length ≤ E * maxDegree neighbours :=
          Nat.mul_le_mul_left E hdegj
        have hpoolj := hpool j
        have hEltj : E < (availableSlots K st.iNotSwappedYetParticles j).length := by
          omega
        cases hcB : choose (st.prngCounter + 1)
            (availableSlots K st.iNotSwappedYetParticles j) E with
        | none =>
          exfalso
          have h := horacle (st.prngCounter + 1)
            (availableSlots K st.iNotSwappedYetParticles j) E
            (nodup_availableSlots _ _ _)
          rw [hcB] at h
          omega
        | some chosenB =>
          have hOB := horacle (st.prngCounter + 1)
            (availableSlots K st.iNotSwappedYetParticles j) E
            (nodup_availableSlots _ _ _)
          rw [hcB] at hOB
          obtain ⟨hndB, hsubB, hlenB⟩ := hOB
          have hinv1 : PlanSuccessInv neighbours K E
              { alreadyProcessedPEs := (i, j) :: (j, i) :: st.alreadyProcessedPEs,
                iNotSwappedYetParticles :=
                  markSwapped (markSwapped st.iNotSwappedYetParticles i chosenA)
                    j chosenB,
                exchangeTuples := st.exchangeTuples ++
                  (chosenA.zip chosenB).map
                    (fun ab => (⟨i, ab.1, j, ab.2⟩ : ExchangeTuple)),
                neighboursParticles :=
                  appendAt (appendAt st.neighboursParticles i (j, chosenA)) j
                    (i, chosenB),
                prngCounter := st.prngCounter + 2 } := by
            refine ⟨?_, ?_, ?_⟩
            · intro p q
              simp only [List.mem_cons, Prod.mk.injEq]
              have h := hsymm p q
              constructor
              · rintro (⟨h1, h2⟩ | ⟨h1, h2⟩ | hm)
                · exact Or.inr (Or.inl ⟨h2, h1⟩)
                · exact Or.inl ⟨h2, h1⟩
                · exact Or.inr (Or.inr (h.mp hm))
              · rintro (⟨h1, h2⟩ | ⟨h1, h2⟩ | hm)
                · exact Or.inr (Or.inl ⟨h2, h1⟩)
                · exact Or.inl ⟨h2, h1⟩
                · exact Or.inr (Or.inr (h.mpr hm))
            · intro p
              show K ≤ (availableSlots K
                  (markSwapped (markSwapped st.iNotSwappedYetParticles i chosenA)
                    j chosenB) p).length + E * _
              by_cases hpi : p = i
              · subst hpi
                have hrow : availableSlots K
                    (markSwapped (markSwapped st.iNotSwappedYetParticles p chosenA)
                      j chosenB) p =
                    availableSlots K
                      (markSwapped st.iNotSwappedYetParticles p chosenA) p :=
                  availableSlots_markSwapped_other chosenB hij
                rw [hrow]
                have hmark := length_availableSlots_markSwapped_ge
                  (K := K) st.iNotSwappedYetParticles p chosenA
                have hcnt : countProcessed neighbours
                    { alreadyProcessedPEs :=
                        (p, j) :: (j, p) :: st.alreadyProcessedPEs,
                      iNotSwappedYetParticles :=
                        markSwapped (markSwapped st.iNotSwappedYetParticles p chosenA)
                          j chosenB,
                      exchangeTuples := st.exchangeTuples ++
                        (chosenA.zip chosenB).map
                          (fun ab => (⟨p, ab.1, j, ab.2⟩ : ExchangeTuple)),
                      neighboursParticles :=
                        appendAt (appendAt st.neighboursParticles p (j, chosenA)) j
                          (p, chosenB),
                      prngCounter := st.prngCounter + 2 } p =
                    countProcessed neighbours st p + 1 := by
                  unfold countProcessed
                  exact length_filter_procCons_self hndrowi hjrow hmem hij
                rw [hcnt, Nat.mul_succ]
                omega
              · by_cases hpj : p = j
                · subst hpj
                  have hrow : availableSlots K
                      (markSwapped (markSwapped st.iNotSwappedYetParticles i chosenA)
                        p chosenB) p =
                      availableSlots K
                        (markSwapped st.iNotSwappedYetParticles p chosenB) p := by
                    unfold availableSlots
                    refine List.filter_congr ?_
                    intro s _
                    unfold markSwapped
                    by_cases hs : s ∈ chosenB
                    · rw [if_pos ⟨rfl, hs⟩, if_pos ⟨rfl, hs⟩]
                    · rw [if_neg (fun hx => hs hx.2),
                        if_neg (fun hx => hij hx.1.symm),
                        if_neg (fun hx => hs hx.2)]
                  rw [hrow]
                  have hmark := length_availableSlots_markSwapped_ge
                    (K := K) st.iNotSwappedYetParticles p chosenB
                  have hcnt : countProcessed neighbours
                      { alreadyProcessedPEs :=
                          (i, p) :: (p, i) :: st.alreadyProcessedPEs,
                        iNotSwappedYetParticles :=
                          markSwapped
                            (markSwapped st.iNotSwappedYetParticles i chosenA)
                            p chosenB,
                        exchangeTuples := st.exchangeTuples ++
                          (chosenA.zip chosenB).map
                            (fun ab => (⟨i, ab.1, p, ab.2⟩ : ExchangeTuple)),
                        neighboursParticles :=
                          appendAt (appendAt st.neighboursParticles i (p, chosenA)) p
                            (i, chosenB),
                        prngCounter := st.prngCounter + 2 } p =
                      countProcessed neighbours st p + 1 := by
                    unfold countProcessed
                    exact length_filter_procCons_nbr hndrowj hirowj hnotinj hij
                  rw [hcnt, Nat.mul_succ]
                  omega
                · have hrow : availableSlots K
                      (markSwapped (markSwapped st.iNotSwappedYetParticles i chosenA)
                        j chosenB) p =
                      availableSlots K st.iNotSwappedYetParticles p := by
                    rw [availableSlots_markSwapped_other chosenB hpj,
                      availableSlots_markSwapped_other chosenA hpi]
                  rw [hrow]
                  have hcnt : countProcessed neighbours
                      { alreadyProcessedPEs :=
                          (i, j) :: (j, i) :: st.alreadyProcessedPEs,
                        iNotSwappedYetParticles :=
                          markSwapped
                            (markSwapped st.iNotSwappedYetParticles i chosenA)
                            j chosenB,
                        exchangeTuples := st.exchangeTuples ++
                          (chosenA.zip chosenB).map
                            (fun ab => (⟨i, ab.1, j, ab.2⟩ : ExchangeTuple)),
                        neighboursParticles :=
                          appendAt (appendAt st.neighboursParticles i (j, chosenA)) j
                            (i, chosenB),
                        prngCounter := st.prngCounter + 2 } p =
                      countProcessed neighbours st p := by
                    unfold countProcessed
                    exact congrArg List.length (filter_procCons_other hpi hpj)
                  rw [hcnt]
                  exact hpool p
            · intro l hl e he
              rcases appendAt_entry l hl e he with ⟨y', hy', he'⟩ | rfl
              · rcases appendAt_entry y' hy' e he' with ⟨y'', hy'', he''⟩ | rfl
                · exact hnps y'' hy'' e he''
                · exact hlenA
              · exact hlenB
          obtain ⟨st', hfold', hinv'⟩ := ih _ hvalid' hinv1
          refine ⟨st', ?_, hinv'⟩
          rw [List.foldlM_cons]
          show processPair choose K E st (i, j) >>= _ = _
          unfold processPair
          rw [if_neg hmem]
          rw [hcA, hcB]
          exact hfold'

/-- C7: with a fractional `exchanged_particles` parameter `phi`, construction
computes the per-neighbour swap count as
`E = ⌊K·phi / max_i |neighbours(i)|⌋`; on a symmetric, irreflexive,
duplicate-free topology with `0 < phi < 1` construction raises exactly when
`E` resolves to 0, and otherwise succeeds with every grouped
`(neighbour, slots)` entry of the plan exchanging exactly `E` particles. -/
theorem C7_fractional_exchanged_particles (neighbours : List (List ℕ)) (K : ℕ)
    (phi : ℚ) (choose : ℕ → List ℕ → ℕ → Option (List ℕ))
    (horacle : ChoiceOracle choose)
    (hphi0 : 0 < phi) (hphi1 : phi < 1)
    (hmax : 1 ≤ maxDegree neighbours)
    (hirr : ∀ i < neighbours.length, i ∉ neighbours.getD i [])
    (hsym : ∀ i < neighbours.length, ∀ j ∈ neighbours.getD i [],
      i ∈ neighbours.getD j [])
    (hnodup : ∀ i < neighbours.length, (neighbours.getD i []).Nodup) :
    fractionalExchangedParticles K phi neighbours =
        (⌊((K : ℚ) * phi) / (maxDegree neighbours : ℚ)⌋).toNat ∧
      (fractionalExchangedParticles K phi neighbours = 0 →
        drnaPlanFractional neighbours K phi choose =
          Except.error "no particles are to be shared by a PE with its neighbours") ∧
      (fractionalExchangedParticles K phi neighbours ≠ 0 →
        ∃ tuples nps,
          drnaPlanFractional neighbours K phi choose = Except.ok (tuples, nps) ∧
            ∀ l ∈ nps, ∀ e ∈ l,
              e.2.length = fractionalExchangedParticles K phi neighbours) := by
  refine ⟨rfl, ?_, ?_⟩
  · intro hE0
    unfold drnaPlanFractional drnaPlan
    rw [if_pos hE0]
  · intro hE
    have hM0 : (0 : ℚ) < (maxDegree neighbours : ℚ) := by
      exact_mod_cast lt_of_lt_of_le Nat.zero_lt_one hmax
    have hF1 : 1 ≤ ⌊((K : ℚ) * phi) / (maxDegree neighbours : ℚ)⌋ := by
      by_contra h
      push_neg at h
      have h0 : (⌊((K : ℚ) * phi) / (maxDegree neighbours : ℚ)⌋).toNat = 0 := by
        omega
      exact hE h0
    have h1 : (1 : ℚ) ≤ (⌊((K : ℚ) * phi) / (maxDegree neighbours : ℚ)⌋ : ℚ) := by
      exact_mod_cast hF1
    have hM1 : (1 : ℚ) ≤ (maxDegree neighbours : ℚ) := by exact_mod_cast hmax
    have hle : ((⌊((K : ℚ) * phi) / (maxDegree neighbours : ℚ)⌋ : ℤ) : ℚ) ≤
        ((K : ℚ) * phi) / (maxDegree neighbours : ℚ) := Int.floor_le _
    have hmul : ((⌊((K : ℚ) * phi) / (maxDegree neighbours : ℚ)⌋ : ℤ) : ℚ) *
        (maxDegree neighbours : ℚ) ≤ (K : ℚ) * phi := (le_div_iff₀ hM0).mp hle
    have h2 : (1 : ℚ) ≤ (K : ℚ) * phi := by nlinarith
    have hK0 : (0 : ℚ) < (K : ℚ) := by nlinarith
    have h3 : (K : ℚ) * phi < (K : ℚ) := by nlinarith
    have h4 : ((⌊((K : ℚ) * phi) / (maxDegree neighbours : ℚ)⌋ : ℤ) : ℚ) *
        (maxDegree neighbours : ℚ) < (K : ℚ) := lt_of_le_of_lt hmul h3
    have hEK : fractionalExchangedParticles K phi neighbours *
        maxDegree neighbours < K := by
      unfold fractionalExchangedParticles
      rw [← Nat.cast_lt (α := ℚ)]
      push_cast
      calc ((⌊((K : ℚ) * phi) / (maxDegree neighbours : ℚ)⌋.toNat : ℕ) : ℚ) *
          (maxDegree neighbours : ℚ)
          = ((⌊((K : ℚ) * phi) / (maxDegree neighbours : ℚ)⌋ : ℤ) : ℚ) *
            (maxDegree neighbours : ℚ) := by
            congr 1
            exact_mod_cast Int.toNat_of_nonneg (by omega :
              (0 : ℤ) ≤ ⌊((K : ℚ) * phi) / (maxDegree neighbours : ℚ)⌋)
        _ < (K : ℚ) := h4
    have hinit : PlanSuccessInv neighbours K
        (fractionalExchangedParticles K phi neighbours)
        (initPlanState neighbours.length) := by
      refine ⟨?_, ?_, ?_⟩
      · intro p q
        constructor
        · intro h
          cases h
        · intro h
          cases h
      · intro p
        have hall : availableSlots K (fun _ _ => true) p = List.range K := by
          unfold availableSlots
          exact List.filter_true _
        show K ≤ (availableSlots K (fun _ _ => true) p).length + _
        rw [hall, List.length_range]
        exact Nat.le_add_right K _
      · intro l hl e he
        have : l = [] := (List.mem_replicate.mp hl).2
        rw [this] at he
        cases he
    obtain ⟨st', hfold, hinv'⟩ := planFold_success horacle hirr hsym hnodup hEK
      (pairList neighbours) (initPlanState neighbours.length)
      (fun pr hpr => pairList_mem hpr) hinit
    refine ⟨st'.exchangeTuples, st'.neighboursParticles, ?_, hinv'.2.2⟩
    unfold drnaPlanFractional drnaPlan
    rw [if_neg hE, hfold]
    rfl

/-- Witness for C7 on a two-PE line with `K = 2` and `phi = 1/2`. -/
theorem C7_witness :
    (0 : ℚ) < 1 / 2 ∧ (1 / 2 : ℚ) < 1 ∧ 1 ≤ maxDegree [[1], [0]] ∧
      (fractionalExchangedParticles 2 (1 / 2) [[1], [0]] =
          (⌊((2 : ℚ) * (1 / 2)) / (maxDegree [[1], [0]] : ℚ)⌋).toNat ∧
        (fractionalExchangedParticles 2 (1 / 2) [[1], [0]] = 0 →
          drnaPlanFractional [[1], [0]] 2 (1 / 2) takeChoice =
            Except.error "no particles are to be shared by a PE with its neighbours") ∧
        (fractionalExchangedParticles 2 (1 / 2) [[1], [0]] ≠ 0 →
          ∃ tuples nps,
            drnaPlanFractional [[1], [0]] 2 (1 / 2) takeChoice =
                Except.ok (tuples, nps) ∧
              ∀ l ∈ nps, ∀ e ∈ l,
                e.2.length = fractionalExchangedParticles 2 (1 / 2) [[1], [0]])) :=
  ⟨by norm_num, by norm_num, by decide,
    C7_fractional_exchanged_particles [[1], [0]] 2 (1 / 2) takeChoice
      takeChoice_oracle (by norm_num) (by norm_num) (by decide) (by decide)
      (by decide) (by decide)⟩
